import Mathlib

/-!
Verification development for the edge-tts TypeScript client.

This file gives a shallow embedding, in Lean, of the parts of the code base
that the specification's claims are about:

* `src/utils.ts` — XML escaping helpers, the byte-oriented text segmenter
  (`splitTextByByteLength` with its helpers `findLastNewlineOrSpaceWithinLimit`,
  `findSafeUtf8SplitPoint`, `adjustSplitPointForXmlEntity`) and the frame
  header parser `getHeadersAndData`;
* `src/drm.ts` — the clock-skew aware `Sec-MS-GEC` token generator
  (`getUnixTimestamp`, `generateSecMsGec`) together with a bit-faithful
  SHA-256;
* `src/communicate.ts` — `parseMetadata`, the per-message processing of
  `streamInternal` (text frames, binary audio frames, the
  `offsetCompensation` / `lastDurationOffset` bookkeeping and the
  `NoAudioReceived` check), and the connect/retry loop of `stream`;
* `src/subMaker.ts` — the boundary-type check performed by `SubMaker.feed`.

Representation conventions:

* Node `Buffer` values are `List Nat`, one element per byte (each < 256 for
  buffers produced by encoding).
* JavaScript strings are `List Nat`, one element per Unicode code point.
  `Buffer.from(str, "utf-8")` is `utf8Encode`, `buf.toString("utf-8")` is
  `utf8Decode` (a WHATWG-style decoder emitting U+FFFD for errors, which is
  what Node does).
* JavaScript numbers are `Int` where the code only ever holds integers and
  `Rat` for the DRM clock arithmetic (where fractional seconds occur).
* Fallible code returns `Except`; thrown JS exceptions are modelled by
  dedicated error constructors named after the exception raised.
* Recursive procedures whose JS originals are `while` loops are given an
  explicit fuel argument so that they are structurally recursive and
  kernel-evaluable; the public wrapper passes fuel that provably suffices
  (each iteration consumes at least one byte).
-/

namespace EdgeTTS

instance {eps alpha : Type} [DecidableEq eps] [DecidableEq alpha] :
    DecidableEq (Except eps alpha) := fun a b =>
  match a, b with
  | .error e, .error f => decidable_of_iff (e = f) (by simp)
  | .ok x, .ok y => decidable_of_iff (x = y) (by simp)
  | .error _, .ok _ => isFalse (by simp)
  | .ok _, .error _ => isFalse (by simp)

/-- Bytes of a Node `Buffer`. -/
abbrev Bytes := List Nat

/-- Code points of an ASCII string literal, used to transport string
constants from the source into the byte/codepoint world. -/
def str (s : String) : List Nat := s.data.map Char.toNat

/-- The code points removed by JavaScript `String.prototype.trim`
(WhiteSpace plus LineTerminator productions). -/
def jsWhitespaceList : List Nat :=
  [0x9, 0xA, 0xB, 0xC, 0xD, 0x20, 0xA0, 0x1680,
   0x2000, 0x2001, 0x2002, 0x2003, 0x2004, 0x2005, 0x2006, 0x2007,
   0x2008, 0x2009, 0x200A, 0x2028, 0x2029, 0x202F, 0x205F, 0x3000, 0xFEFF]

/-- Whether a code point is JS whitespace (removed by `trim`). -/
def isJsWhitespace (c : Nat) : Bool := jsWhitespaceList.contains c

/-- JavaScript `String.prototype.trim` on a code point list. -/
def jsTrim (s : List Nat) : List Nat :=
  ((s.dropWhile isJsWhitespace).reverse.dropWhile isJsWhitespace).reverse

/-- A Unicode scalar value: what a well-formed JS string's code points are
(after Node replaces lone surrogates during UTF-8 encoding). -/
def IsScalar (c : Nat) : Prop := c < 0x110000 ∧ (c < 0xD800 ∨ 0xE000 ≤ c)

instance (c : Nat) : Decidable (IsScalar c) := by
  unfold IsScalar; infer_instance

/-- UTF-8 encoding of one scalar value. -/
def utf8EncodeChar (c : Nat) : List Nat :=
  if c < 0x80 then [c]
  else if c < 0x800 then [0xC0 + c / 64, 0x80 + c % 64]
  else if c < 0x10000 then [0xE0 + c / 4096, 0x80 + c / 64 % 64, 0x80 + c % 64]
  else [0xF0 + c / 262144, 0x80 + c / 4096 % 64, 0x80 + c / 64 % 64, 0x80 + c % 64]

/-- UTF-8 encoding of a code point list (JS `Buffer.from(str, "utf-8")`). -/
def utf8Encode (s : List Nat) : Bytes := (s.map utf8EncodeChar).flatten

/-- Is a byte a UTF-8 continuation byte (0x80–0xBF)? -/
def contOK (c : Nat) : Bool := decide (0x80 ≤ c) && decide (c ≤ 0xBF)

/-- Valid range for the first continuation byte after a three-byte lead
(restricted for 0xE0 and 0xED, per WHATWG). -/
def cont3OK (b c : Nat) : Bool :=
  if b = 0xE0 then decide (0xA0 ≤ c) && decide (c ≤ 0xBF)
  else if b = 0xED then decide (0x80 ≤ c) && decide (c ≤ 0x9F)
  else contOK c

/-- Valid range for the first continuation byte after a four-byte lead
(restricted for 0xF0 and 0xF4, per WHATWG). -/
def cont4OK (b c : Nat) : Bool :=
  if b = 0xF0 then decide (0x90 ≤ c) && decide (c ≤ 0xBF)
  else if b = 0xF4 then decide (0x80 ≤ c) && decide (c ≤ 0x8F)
  else contOK c

/-- Fuelled WHATWG UTF-8 decoder (Node `buf.toString("utf-8")`): malformed
input produces U+FFFD following the maximal-subpart rule.  Fuel at least the
list length is always enough because every step consumes at least one byte. -/
def utf8DecodeF : Nat → List Nat → List Nat
  | 0, _ => []
  | _ + 1, [] => []
  | f + 1, b :: rest =>
    if b < 0x80 then b :: utf8DecodeF f rest
    else if 0xC2 ≤ b ∧ b ≤ 0xDF then
      match rest with
      | [] => [0xFFFD]
      | c1 :: r1 =>
        if contOK c1 then ((b - 0xC0) * 64 + (c1 - 0x80)) :: utf8DecodeF f r1
        else 0xFFFD :: utf8DecodeF f (c1 :: r1)
    else if 0xE0 ≤ b ∧ b ≤ 0xEF then
      match rest with
      | [] => [0xFFFD]
      | c1 :: r1 =>
        if cont3OK b c1 then
          match r1 with
          | [] => [0xFFFD]
          | c2 :: r2 =>
            if contOK c2 then
              ((b - 0xE0) * 4096 + (c1 - 0x80) * 64 + (c2 - 0x80)) :: utf8DecodeF f r2
            else 0xFFFD :: utf8DecodeF f (c2 :: r2)
        else 0xFFFD :: utf8DecodeF f (c1 :: r1)
    else if 0xF0 ≤ b ∧ b ≤ 0xF4 then
      match rest with
      | [] => [0xFFFD]
      | c1 :: r1 =>
        if cont4OK b c1 then
          match r1 with
          | [] => [0xFFFD]
          | c2 :: r2 =>
            if contOK c2 then
              match r2 with
              | [] => [0xFFFD]
              | c3 :: r3 =>
                if contOK c3 then
                  ((b - 0xF0) * 262144 + (c1 - 0x80) * 4096 + (c2 - 0x80) * 64 + (c3 - 0x80))
                    :: utf8DecodeF f r3
                else 0xFFFD :: utf8DecodeF f (c3 :: r3)
            else 0xFFFD :: utf8DecodeF f (c2 :: r2)
        else 0xFFFD :: utf8DecodeF f (c1 :: r1)
    else 0xFFFD :: utf8DecodeF f rest

/-- UTF-8 decoding of a byte list (JS `buf.toString("utf-8")`). -/
def utf8Decode (l : Bytes) : List Nat := utf8DecodeF l.length l

/-- The same decoder in well-founded form, used for the proofs (the
fuelled `utf8Decode` is the kernel-evaluable one; the two are proved
equal below). -/
def utf8DecodeW : List Nat → List Nat
  | [] => []
  | b :: rest =>
    if b < 0x80 then b :: utf8DecodeW rest
    else if 0xC2 ≤ b ∧ b ≤ 0xDF then
      match rest with
      | [] => [0xFFFD]
      | c1 :: r1 =>
        if contOK c1 then ((b - 0xC0) * 64 + (c1 - 0x80)) :: utf8DecodeW r1
        else 0xFFFD :: utf8DecodeW (c1 :: r1)
    else if 0xE0 ≤ b ∧ b ≤ 0xEF then
      match rest with
      | [] => [0xFFFD]
      | c1 :: r1 =>
        if cont3OK b c1 then
          match r1 with
          | [] => [0xFFFD]
          | c2 :: r2 =>
            if contOK c2 then
              ((b - 0xE0) * 4096 + (c1 - 0x80) * 64 + (c2 - 0x80)) :: utf8DecodeW r2
            else 0xFFFD :: utf8DecodeW (c2 :: r2)
        else 0xFFFD :: utf8DecodeW (c1 :: r1)
    else if 0xF0 ≤ b ∧ b ≤ 0xF4 then
      match rest with
      | [] => [0xFFFD]
      | c1 :: r1 =>
        if cont4OK b c1 then
          match r1 with
          | [] => [0xFFFD]
          | c2 :: r2 =>
            if contOK c2 then
              match r2 with
              | [] => [0xFFFD]
              | c3 :: r3 =>
                if contOK c3 then
                  ((b - 0xF0) * 262144 + (c1 - 0x80) * 4096 + (c2 - 0x80) * 64 + (c3 - 0x80))
                    :: utf8DecodeW r3
                else 0xFFFD :: utf8DecodeW (c3 :: r3)
            else 0xFFFD :: utf8DecodeW (c2 :: r2)
        else 0xFFFD :: utf8DecodeW (c1 :: r1)
    else 0xFFFD :: utf8DecodeW rest
  termination_by l => l.length
  decreasing_by all_goals simp <;> omega

/-- Index of the last occurrence of byte `v`, if any
(JS `Buffer.prototype.lastIndexOf` restricted to byte needles). -/
def lastIndexOfByte : List Nat → Nat → Option Nat
  | [], _ => none
  | b :: t, v =>
    match lastIndexOfByte t v with
    | some i => some (i + 1)
    | none => if b = v then some 0 else none

/-- Index of the first occurrence of byte `v`, if any. -/
def firstIndexOfByte : List Nat → Nat → Option Nat
  | [], _ => none
  | b :: t, v => if b = v then some 0 else (firstIndexOfByte t v).map (· + 1)

/-- JS `buf.indexOf(v, start)` for a single byte, as an absolute index. -/
def indexOfByteFrom (l : Bytes) (v : Nat) (start : Nat) : Option Nat :=
  (firstIndexOfByte (l.drop start) v).map (start + ·)

/-- Index of the first occurrence of the byte sequence `pat`, if any. -/
def firstIndexOfSeq : List Nat → List Nat → Option Nat
  | [], pat => if pat.length = 0 then some 0 else none
  | b :: t, pat =>
    if (b :: t).take pat.length = pat then some 0
    else (firstIndexOfSeq t pat).map (· + 1)

/-- JS `buf.indexOf(pat)` for a byte sequence: first index or `-1`. -/
def bytesIndexOf (l pat : List Nat) : Int :=
  match firstIndexOfSeq l pat with
  | some i => (i : Int)
  | none => -1

/-- Clamp one `subarray` bound the way `TypedArray.prototype.subarray`
does: negative values count from the end, and everything is clamped to
`[0, len]`. -/
def clampIndex (len : Nat) (i : Int) : Nat :=
  if i < 0 then ((len : Int) + i).toNat else min i.toNat len

/-- Node `buf.subarray(s, e)` (no copy in JS; a fresh list here). -/
def jsSubarray (b : Bytes) (s e : Int) : Bytes :=
  (b.take (clampIndex b.length e)).drop (clampIndex b.length s)

/-- Node `buf.subarray(s)` (end bound defaulted to the length). -/
def jsSubarrayFrom (b : Bytes) (s : Int) : Bytes :=
  jsSubarray b s (b.length : Int)

/-- Fuelled JS `String.prototype.split` with a non-empty separator.  Fuel
`s.length + 1` suffices because each round consumes at least one element. -/
def jsSplitSepF : Nat → List Nat → List Nat → List (List Nat)
  | 0, s, _ => [s]
  | f + 1, s, sep =>
    match firstIndexOfSeq s sep with
    | some i => s.take i :: jsSplitSepF f (s.drop (i + sep.length)) sep
    | none => [s]

/-- JS `s.split(sep)` on code point lists. -/
def jsSplitSep (s sep : List Nat) : List (List Nat) :=
  jsSplitSepF (s.length + 1) s sep

/-- JS `s.split(sep, limit)`: the full split truncated to `limit` parts. -/
def jsSplitLimit (s sep : List Nat) (limit : Nat) : List (List Nat) :=
  (jsSplitSep s sep).take limit

/-- A parsed header map: insertion-ordered key/value pairs with unique keys
(JS plain-object semantics for string keys). -/
abbrev Headers := List (List Nat × List Nat)

/-- JS `obj[k] = v`: overwrite in place if present, else append. -/
def setHeader (m : Headers) (k v : List Nat) : Headers :=
  if m.any (fun p => p.1 == k) then
    m.map (fun p => if p.1 == k then (k, v) else p)
  else m ++ [(k, v)]

/-- JS `obj[k]` as an `Option`. -/
def getHeader (m : Headers) (k : List Nat) : Option (List Nat) :=
  (m.find? (fun p => p.1 == k)).map (fun p => p.2)

/-- The header-line parsing of `getHeadersAndData` (`src/utils.ts`): split
the decoded header block into `\r\n`-separated lines, colon-split each with
JS limit 2, drop falsy keys/values, trim and insert. -/
def parseHeaderLines (s : List Nat) : Headers :=
  (jsSplitSep s [13, 10]).foldl
    (fun m line =>
      match jsSplitLimit line [58] 2 with
      | k :: v :: _ => if k ≠ [] ∧ v ≠ [] then setHeader m (jsTrim k) (jsTrim v) else m
      | _ => m)
    ([] : Headers)

/-- `getHeadersAndData` from `src/utils.ts`: slice off `headerLength` bytes
of header block, skip two bytes, and parse the header lines.  Total for
every `headerLength`, including `-1` and values beyond the buffer length,
exactly as the JS original (`subarray` clamps, nothing throws). -/
def getHeadersAndData (data : Bytes) (headerLength : Int) : Headers × Bytes :=
  let headerBytes := jsSubarray data 0 headerLength
  let rest := jsSubarrayFrom data (headerLength + 2)
  (parseHeaderLines (utf8Decode headerBytes), rest)

/-- `findLastNewlineOrSpaceWithinLimit` from `src/utils.ts`: last `\n`
within the first `limit` bytes, else last space, else `-1`. -/
def findLastNewlineOrSpaceWithinLimit (text : Bytes) (limit : Nat) : Int :=
  let slice := text.take limit
  match lastIndexOfByte slice 10 with
  | some i => (i : Int)
  | none =>
    match lastIndexOfByte slice 32 with
    | some i => (i : Int)
    | none => -1

/-- Is the last code point U+FFFD?  (JS `str.endsWith("�")`; U+FFFD is
a single UTF-16 unit, and the decoder never emits lone surrogates, so this
is exactly the last-code-point test.) -/
def endsWithFFFD (s : List Nat) : Bool := s.getLast? == some 0xFFFD

/-- The body of `findSafeUtf8SplitPoint`'s while loop, with the candidate
split point as the recursion counter.  Mirrors the JS checks in order:
ASCII last byte; else decode/re-encode byte-length round-trip without a
trailing U+FFFD; else decrement.  The `try`/`catch` around `toString` is
dead code in Node (`toString("utf-8")` never throws) and is dropped. -/
def findSafeGo (seg : Bytes) : Nat → Nat
  | 0 => 0
  | k + 1 =>
    let sub := seg.take (k + 1)
    match sub.getLast? with
    | some lastByte =>
      if lastByte &&& 0x80 = 0 then k + 1
      else if (utf8Encode (utf8Decode sub)).length = sub.length ∧ ¬ endsWithFFFD (utf8Decode sub)
        then k + 1
      else findSafeGo seg k
    | none =>
      -- `sub[sub.length - 1]` is `undefined`, so the ASCII test fails and
      -- the round-trip test runs on the empty string, which passes.
      if (utf8Encode (utf8Decode sub)).length = sub.length ∧ ¬ endsWithFFFD (utf8Decode sub)
        then k + 1
      else findSafeGo seg k

/-- `findSafeUtf8SplitPoint` from `src/utils.ts`. -/
def findSafeUtf8SplitPoint (textSegment : Bytes) : Nat :=
  findSafeGo textSegment textSegment.length

/-- `adjustSplitPointForXmlEntity` from `src/utils.ts`: if the last `&`
before the split has no `;` at or after it (still before the split), move
the split back to that `&`. -/
def adjustSplitPointForXmlEntity (text : Bytes) (splitAt : Nat) : Nat :=
  let sub := text.take splitAt
  match lastIndexOfByte sub 38 with
  | some ampersandIndex =>
    match indexOfByteFrom sub 59 ampersandIndex with
    | some _ => splitAt
    | none => ampersandIndex
  | none => splitAt

/-- Errors thrown by `splitTextByByteLength`, named after the `Error`
messages in `src/utils.ts`. -/
inductive SplitError where
  /-- `byteLength must be > 0` -/
  | invalidByteLength : SplitError
  /-- `Maximum byte length too small for text structure` -/
  | maxByteLengthTooSmall : SplitError
deriving DecidableEq

/-- The `while (buffer.length > byteLength)` loop of `splitTextByByteLength`,
fuelled; fuel `buffer.length + 1` suffices because each iteration drops
`splitAt ≥ 1` bytes.  The source advances the buffer by
`splitAt + (splitAt > 0 ? 0 : 1)`, but that step is only reached after the
`splitAt <= 0` throw, so the advance is always exactly `splitAt`. -/
def splitLoopF : Nat → Bytes → Nat → Except SplitError (List Bytes)
  | 0, _, _ => .error .maxByteLengthTooSmall
  | fuel + 1, buffer, byteLength =>
    if byteLength < buffer.length then
      let s0 := findLastNewlineOrSpaceWithinLimit buffer byteLength
      let splitAt0 : Nat :=
        if s0 < 0 then findSafeUtf8SplitPoint (buffer.take byteLength) else s0.toNat
      let splitAt := adjustSplitPointForXmlEntity buffer splitAt0
      if splitAt = 0 then .error .maxByteLengthTooSmall
      else
        let chunk := buffer.take splitAt
        let chunkStr := jsTrim (utf8Decode chunk)
        match splitLoopF fuel (buffer.drop splitAt) byteLength with
        | .error e => .error e
        | .ok rest => .ok (if chunkStr ≠ [] then utf8Encode chunkStr :: rest else rest)
    else
      let remaining := jsTrim (utf8Decode buffer)
      .ok (if remaining ≠ [] then [utf8Encode remaining] else [])

/-- `splitTextByByteLength` from `src/utils.ts`, collecting the generator's
yields in order.  The argument is the UTF-8 buffer the JS function builds
from its input (`Buffer.from(text, "utf-8")` for string inputs). -/
def splitTextByByteLength (text : Bytes) (byteLength : Int) : Except SplitError (List Bytes) :=
  if byteLength ≤ 0 then .error .invalidByteLength
  else splitLoopF (text.length + 1) text byteLength.toNat

/-- Fuelled JS `String.prototype.replace` with a global literal pattern:
leftmost match replaced, scanning resumes after the replacement.  Fuel
`s.length` suffices for the non-empty patterns used here. -/
def jsReplaceAllF : Nat → List Nat → List Nat → List Nat → List Nat
  | 0, _, _, s => s
  | _ + 1, _, _, [] => []
  | f + 1, pat, rep, c :: rest =>
    if (c :: rest).take pat.length = pat then
      rep ++ jsReplaceAllF f pat rep ((c :: rest).drop pat.length)
    else c :: jsReplaceAllF f pat rep rest

/-- JS `s.replace(/pat/g, rep)` for a literal pattern. -/
def jsReplaceAll (pat rep s : List Nat) : List Nat := jsReplaceAllF s.length pat rep s

/-- `unescapeXml` from `src/utils.ts`: the five chained global replaces, in
source order. -/
def unescapeXml (s : List Nat) : List Nat :=
  jsReplaceAll (str ("&quot;")) (str ("\""))
    (jsReplaceAll (str ("&apos;")) [39]
      (jsReplaceAll (str ("&amp;")) [38]
        (jsReplaceAll (str ("&gt;")) [62]
          (jsReplaceAll (str ("&lt;")) [60] s))))

/-- Rotate a 32-bit word right by `n` (0 < n < 32). -/
def rotr32 (x n : Nat) : Nat := ((x >>> n) ||| (x <<< (32 - n))) % 4294967296

/-- The SHA-256 round constants (FIPS 180-4 §4.2.2, in decimal). -/
def sha256K : List Nat :=
  [1116352408, 1899447441, 3049323471, 3921009573,
   961987163, 1508970993, 2453635748, 2870763221,
   3624381080, 310598401, 607225278, 1426881987,
   1925078388, 2162078206, 2614888103, 3248222580,
   3835390401, 4022224774, 264347078, 604807628,
   770255983, 1249150122, 1555081692, 1996064986,
   2554220882, 2821834349, 2952996808, 3210313671,
   3336571891, 3584528711, 113926993, 338241895,
   666307205, 773529912, 1294757372, 1396182291,
   1695183700, 1986661051, 2177026350, 2456956037,
   2730485921, 2820302411, 3259730800, 3345764771,
   3516065817, 3600352804, 4094571909, 275423344,
   430227734, 506948616, 659060556, 883997877,
   958139571, 1322822218, 1537002063, 1747873779,
   1955562222, 2024104815, 2227730452, 2361852424,
   2428436474, 2756734187, 3204031479, 3329325298]

/-- Big-endian bytes of a 32-bit word. -/
def toBE32 (w : Nat) : List Nat :=
  [w / 16777216 % 256, w / 65536 % 256, w / 256 % 256, w % 256]

/-- SHA-256 padding: `0x80`, zeros, and the 64-bit big-endian bit length. -/
def sha256Pad (msg : Bytes) : Bytes :=
  let bitLen := msg.length * 8
  let padZeros := (64 - (msg.length + 9) % 64) % 64
  msg ++ [0x80] ++ List.replicate padZeros 0 ++
    [bitLen / 72057594037927936 % 256, bitLen / 281474976710656 % 256,
     bitLen / 1099511627776 % 256, bitLen / 4294967296 % 256,
     bitLen / 16777216 % 256, bitLen / 65536 % 256, bitLen / 256 % 256, bitLen % 256]

/-- Group bytes into big-endian 32-bit words. -/
def wordsOfBytes : Bytes → List Nat
  | b0 :: b1 :: b2 :: b3 :: rest =>
    (b0 * 16777216 + b1 * 65536 + b2 * 256 + b3) :: wordsOfBytes rest
  | _ => []

/-- Extend the 16-word message schedule by `n` further words. -/
def sha256Extend (w : List Nat) : Nat → List Nat
  | 0 => w
  | n + 1 =>
    let w' := sha256Extend w n
    let i := w'.length
    let w15 := w'.getD (i - 15) 0
    let w2 := w'.getD (i - 2) 0
    let w16 := w'.getD (i - 16) 0
    let w7 := w'.getD (i - 7) 0
    let s0 := (rotr32 w15 7) ^^^ (rotr32 w15 18) ^^^ (w15 >>> 3)
    let s1 := (rotr32 w2 17) ^^^ (rotr32 w2 19) ^^^ (w2 >>> 10)
    w' ++ [(w16 + s0 + w7 + s1) % 4294967296]

/-- One SHA-256 compression round; `kw` is the round constant paired with
the schedule word. -/
def sha256Round (st : List Nat) (kw : Nat × Nat) : List Nat :=
  match st with
  | [a, b, c, d, e, f, g, h] =>
    let S1 := (rotr32 e 6) ^^^ (rotr32 e 11) ^^^ (rotr32 e 25)
    let ch := (e &&& f) ^^^ ((4294967295 - e) &&& g)
    let t1 := (h + S1 + ch + kw.1 + kw.2) % 4294967296
    let S0 := (rotr32 a 2) ^^^ (rotr32 a 13) ^^^ (rotr32 a 22)
    let mj := (a &&& b) ^^^ (a &&& c) ^^^ (b &&& c)
    let t2 := (S0 + mj) % 4294967296
    [(t1 + t2) % 4294967296, a, b, c, (d + t1) % 4294967296, e, f, g]
  | other => other

/-- Process one 64-byte block against the running hash state. -/
def sha256Block (h : List Nat) (block : Bytes) : List Nat :=
  let w := sha256Extend (wordsOfBytes block) 48
  let st := (sha256K.zip w).foldl sha256Round h
  (h.zip st).map (fun p => (p.1 + p.2) % 4294967296)

/-- SHA-256 digest (32 bytes) of a byte message, per FIPS 180-4; models
Node `crypto.createHash("sha256")`. -/
def sha256 (msg : Bytes) : Bytes :=
  let h0 := [1779033703, 3144134277, 1013904242, 2773480762,
             1359893119, 2600822924, 528734635, 1541459225]
  let padded := sha256Pad msg
  let hFin := (padded.length / 64).fold
    (fun i acc => sha256Block acc ((padded.drop (i * 64)).take 64)) h0
  hFin.flatMap toBE32

/-- One lowercase hex digit as an ASCII code. -/
def hexDigitAscii (n : Nat) : Nat := if n < 10 then 48 + n else 87 + n

/-- Lowercase hex rendering of bytes (Node `digest("hex")`). -/
def bytesToHexAscii (bs : Bytes) : List Nat :=
  bs.flatMap (fun b => [hexDigitAscii (b / 16), hexDigitAscii (b % 16)])

/-- JS `String.prototype.toUpperCase` restricted to ASCII content. -/
def jsToUpperCaseAscii (s : List Nat) : List Nat :=
  s.map (fun c => if 97 ≤ c ∧ c ≤ 122 then c - 32 else c)

/-- Fuelled decimal digits (most significant first) of a natural number. -/
def natDecimalAsciiF : Nat → Nat → List Nat
  | 0, _ => []
  | f + 1, n =>
    if n < 10 then [48 + n]
    else natDecimalAsciiF f (n / 10) ++ [48 + n % 10]

/-- Decimal ASCII rendering of a natural number. -/
def natDecimalAscii (n : Nat) : List Nat := natDecimalAsciiF (n + 1) n

/-- Decimal ASCII rendering of an integer. -/
def intDecimalAscii (i : Int) : List Nat :=
  if i < 0 then 45 :: natDecimalAscii (-i).toNat else natDecimalAscii i.toNat

/-- Truncation toward zero of a rational, as JS float-to-int conversions
and `%` use. -/
def intTrunc (q : ℚ) : Int := if 0 ≤ q then ⌊q⌋ else ⌈q⌉

/-- JS `%` on numbers (`fmod`): remainder with the dividend's sign. -/
def jsMod (a b : ℚ) : ℚ := a - b * (intTrunc (a / b) : ℚ)

/-- JS `Number.prototype.toFixed(0)`, rendered as ASCII: round to the
nearest integer (exact for the integer-valued ticks produced below) and
print in decimal. -/
def jsToFixed0 (q : ℚ) : List Nat :=
  if 0 ≤ q then intDecimalAscii ⌊q + 1 / 2⌋ else intDecimalAscii (-⌊-q + 1 / 2⌋)

/-- `TRUSTED_CLIENT_TOKEN` from `src/constants.ts` (value as in the copy
bundled in this repository). -/
def TRUSTED_CLIENT_TOKEN : List Nat := str ("6A5AA1D4EAFF4E9FB37E23D68491D6F4")

/-- `WIN_EPOCH` from `src/drm.ts`: seconds between the Windows file-time
epoch (1601) and the Unix epoch (1970). -/
def WIN_EPOCH : Nat := 11644473600

/-- `DRM.getUnixTimestamp` from `src/drm.ts`: `Date.now() / 1000` plus the
accumulated clock skew, given the current millisecond clock and skew. -/
def getUnixTimestamp (nowMs skewSeconds : ℚ) : ℚ := nowMs / 1000 + skewSeconds

/-- `DRM.generateSecMsGec` from `src/drm.ts`, as a function of the clock
reading `t` returned by `getUnixTimestamp`: shift to the Windows epoch,
truncate down to a multiple of 300 s, convert to 100 ns ticks, concatenate
the decimal tick count with `TRUSTED_CLIENT_TOKEN`, hash with SHA-256 and
render as uppercase hex. -/
def generateSecMsGec (t : ℚ) : List Nat :=
  let ticks1 := t + (WIN_EPOCH : ℚ)
  let ticks2 := ticks1 - jsMod ticks1 300
  let ticks3 := ticks2 * 10000000
  let strToHash := jsToFixed0 ticks3 ++ TRUSTED_CLIENT_TOKEN
  jsToUpperCaseAscii (bytesToHexAscii (sha256 strToHash))

/-- Errors thrown by the streaming engine in `src/communicate.ts`, named
after the exception classes and messages raised. -/
inductive CommErr where
  /-- `UnknownResponse("Unknown metadata type: ...")` -/
  | unknownMetadataType (metaType : List Nat) : CommErr
  /-- `UnexpectedResponse("No boundary metadata found")` -/
  | noBoundaryMetadata : CommErr
  /-- `UnexpectedResponse("Binary message too short for header length")` -/
  | binaryTooShort : CommErr
  /-- `UnexpectedResponse("Header length greater than data length")` -/
  | headerLengthTooBig : CommErr
  /-- `UnexpectedResponse("Binary message path is not audio")` -/
  | pathNotAudio : CommErr
  /-- `UnexpectedResponse("Unexpected Content-Type: ...")` -/
  | unexpectedContentType (contentType : List Nat) : CommErr
  /-- `UnexpectedResponse("No Content-Type but got data")` -/
  | noContentTypeButData : CommErr
  /-- `UnexpectedResponse("Audio data is empty")` -/
  | audioDataEmpty : CommErr
  /-- `NoAudioReceived("No audio received from service.")` -/
  | noAudioReceived : CommErr
  /-- a `SyntaxError` escaping `JSON.parse` -/
  | jsonSyntaxError : CommErr
deriving DecidableEq

/-- One parsed element of the `Metadata` array in an `audio.metadata` JSON
body: `Type`, `Data.Offset`, `Data.Duration` and `Data.text.Text`.
`JSON.parse` itself is left abstract (see `runLoop`'s oracle parameter). -/
structure MetaItem where
  mtype : List Nat
  offset : Int
  duration : Int
  text : List Nat
deriving DecidableEq

/-- The `type` discriminator of a `TTSChunk` (`src/types.ts`). -/
inductive ChunkType where
  | audio : ChunkType
  | wordBoundary : ChunkType
  | sentenceBoundary : ChunkType
deriving DecidableEq

/-- A `TTSChunk` event (`src/types.ts`): optional fields as in the
TypeScript interface. -/
structure TTSChunk where
  type : ChunkType
  data : Option Bytes
  offset : Option Int
  duration : Option Int
  text : Option (List Nat)
deriving DecidableEq

/-- `Communicate.parseMetadata` from `src/communicate.ts`, applied to the
already-parsed `Metadata` array: return a boundary chunk for the first
word/sentence-boundary item (offset compensated), skip `SessionEnd`
items, fail on any other type, and fail if no boundary item is found. -/
def parseMetadata (offsetCompensation : Int) : List MetaItem → Except CommErr TTSChunk
  | [] => .error .noBoundaryMetadata
  | metaObj :: rest =>
    if metaObj.mtype = str ("WordBoundary") ∨ metaObj.mtype = str ("SentenceBoundary") then
      .ok (TTSChunk.mk
        (if metaObj.mtype = str ("WordBoundary") then .wordBoundary else .sentenceBoundary)
        none
        (some (metaObj.offset + offsetCompensation))
        (some metaObj.duration)
        (some (unescapeXml metaObj.text)))
    else if metaObj.mtype = str ("SessionEnd") then
      parseMetadata offsetCompensation rest
    else .error (.unknownMetadataType metaObj.mtype)

/-- The decode part of `streamInternal`'s binary branch
(`src/communicate.ts`): length guard, 2-byte big-endian header length
guard, then `getHeadersAndData`. -/
def decodeBinary (buf : Bytes) : Except CommErr (Headers × Bytes) :=
  if buf.length < 2 then .error .binaryTooShort
  else
    let headerLen := buf.getD 0 0 * 256 + buf.getD 1 0
    if buf.length < headerLen then .error .headerLengthTooBig
    else .ok (getHeadersAndData buf (headerLen : Int))

/-- The mutable loop state of `streamInternal`: the session's
`offsetCompensation` and `lastDurationOffset` plus the loop-local
`audioWasReceived` flag. -/
structure LoopState where
  offsetCompensation : Int
  lastDurationOffset : Int
  audioWasReceived : Bool
deriving DecidableEq

/-- One WebSocket message: the transport's text/binary bit plus raw bytes. -/
inductive Msg where
  | text (raw : Bytes) : Msg
  | binary (raw : Bytes) : Msg

/-- A `JSON.parse` oracle for `audio.metadata` bodies: the parsed
`Metadata` array of the JSON encoded by the given bytes, or a syntax
error.  The claims hold for every such oracle. -/
abbrev JsonOracle := Bytes → Except CommErr (List MetaItem)

/-- One iteration of `streamInternal`'s receive loop
(`src/communicate.ts`): classify the message, produce the events yielded,
the updated state, and whether the loop `break`s (`turn.end`).
Text frames: split at the first blank line, dispatch on the `Path` header
(`audio.metadata` → `parseMetadata`, updating `lastDurationOffset`;
`turn.end` → set `offsetCompensation` and break; everything else ignored —
the unknown-path throw is commented out in the source).
Binary frames: `decodeBinary`, require `Path: audio`, then the
Content-Type/emptiness checks in source order. -/
def processMessage (parseJson : JsonOracle) (st : LoopState) :
    Msg → Except CommErr (List TTSChunk × LoopState × Bool)
  | .text raw =>
    let separator := bytesIndexOf raw (str ("\r\n\r\n"))
    let hd := getHeadersAndData raw separator
    match getHeader hd.1 (str ("Path")) with
    | some p =>
      if p = str ("audio.metadata") then
        match parseJson hd.2 with
        | .error e => .error e
        | .ok items =>
          match parseMetadata st.offsetCompensation items with
          | .error e => .error e
          | .ok meta =>
            .ok ([meta],
              LoopState.mk st.offsetCompensation (meta.offset.getD 0 + meta.duration.getD 0)
                st.audioWasReceived,
              false)
      else if p = str ("turn.end") then
        .ok ([],
          LoopState.mk (st.lastDurationOffset + 8750000) st.lastDurationOffset
            st.audioWasReceived,
          true)
      else .ok ([], st, false)
    | none => .ok ([], st, false)
  | .binary raw =>
    match decodeBinary raw with
    | .error e => .error e
    | .ok (headers, audioData) =>
      if getHeader headers (str ("Path")) ≠ some (str ("audio")) then .error .pathNotAudio
      else
        match getHeader headers (str ("Content-Type")) with
        | none =>
          -- source: `!contentType && length === 0` continues,
          -- `!contentType && length > 0` throws
          if audioData.length = 0 then .ok ([], st, false)
          else .error .noContentTypeButData
        | some contentType =>
          if contentType ≠ str ("audio/mpeg") then .error (.unexpectedContentType contentType)
          else if audioData.length = 0 then .error .audioDataEmpty
          else .ok ([TTSChunk.mk .audio (some audioData) none none none],
            LoopState.mk st.offsetCompensation st.lastDurationOffset true,
            false)

/-- `streamInternal`'s receive loop over the arriving messages: process in
order until `turn.end` breaks or the connection closes (list end). -/
def runLoop (parseJson : JsonOracle) (st : LoopState) :
    List Msg → Except CommErr (List TTSChunk × LoopState)
  | [] => .ok ([], st)
  | m :: rest =>
    match processMessage parseJson st m with
    | .error e => .error e
    | .ok (evs, st1, brk) =>
      if brk then .ok (evs, st1)
      else
        match runLoop parseJson st1 rest with
        | .error e => .error e
        | .ok (evs2, st2) => .ok (evs ++ evs2, st2)

/-- `streamInternal` for one chunk (`src/communicate.ts`): run the receive
loop with a fresh `audioWasReceived = false`, then fail with
`NoAudioReceived` if no audio event was emitted. -/
def streamInternal (parseJson : JsonOracle) (offsetCompensation lastDurationOffset : Int)
    (msgs : List Msg) : Except CommErr (List TTSChunk × LoopState) :=
  match runLoop parseJson (LoopState.mk offsetCompensation lastDurationOffset false) msgs with
  | .error e => .error e
  | .ok (evs, st) =>
    if st.audioWasReceived then .ok (evs, st) else .error .noAudioReceived

/-- Outcome of one WebSocket connection attempt in `Communicate.stream`:
either the `open` event, or the error event with its `name` and `code`. -/
inductive ConnectOutcome where
  | opened : ConnectOutcome
  | failed (name : List Nat) (code : Int) : ConnectOutcome

/-- The `while (true)` connect/retry loop of `Communicate.stream`
(`src/communicate.ts`, lines 281–323) for one text chunk, fed the sequence
of connection outcomes the network would produce.  The `catch` block
checks for a 403 `UnexpectedServerResponse` on the first attempt, but both
branches rethrow, so the first outcome always decides; the loop never
consumes a second attempt.  (An empty outcome list corresponds to a
connection that never resolves; the loop would suspend forever, modelled
as an impossible error.) -/
def chunkConnectLoop (retryCount : Nat) :
    List ConnectOutcome → Except (List Nat × Int) Unit
  | [] => .error ([], -1)
  | a :: _ =>
    match a with
    | .opened => .ok ()
    | .failed name code =>
      if name = str ("UnexpectedServerResponse") ∧ code = 403 ∧ retryCount = 0 then
        .error (name, code)
      else
        .error (name, code)

/-- One SRT cue collected by `SubMaker` (`src/subMaker.ts`); times in
milliseconds are rationals because the source divides tick counts
by 10000. -/
structure Subtitle where
  index : Nat
  start : ℚ
  stop : ℚ
  content : List Nat
deriving DecidableEq

/-- `SubMaker`'s mutable state: collected cues plus the pinned boundary
type (`null` until the first boundary event arrives). -/
structure SubMakerState where
  cues : List Subtitle
  stype : Option ChunkType
deriving DecidableEq

/-- Errors thrown by `SubMaker.feed`, named after the `Error` messages. -/
inductive SubErr where
  /-- `Invalid message type, expected 'WordBoundary' or 'SentenceBoundary'.` -/
  | invalidMessageType : SubErr
  /-- `Expected message type '...', but got '...'.` -/
  | mismatchedBoundaryType (expected got : ChunkType) : SubErr
deriving DecidableEq

/-- `SubMaker.feed` from `src/subMaker.ts`: reject non-boundary chunks;
pin the boundary type on first use and reject a differing type afterwards;
then push a cue when offset, duration and text are all present. -/
def subMakerFeed (st : SubMakerState) (msg : TTSChunk) : Except SubErr SubMakerState :=
  if msg.type ≠ .wordBoundary ∧ msg.type ≠ .sentenceBoundary then
    .error .invalidMessageType
  else
    match st.stype with
    | none => subMakerPush (SubMakerState.mk st.cues (some msg.type)) msg
    | some t =>
      if t ≠ msg.type then .error (.mismatchedBoundaryType t msg.type)
      else subMakerPush st msg
where
  /-- The tail of `feed`: return unchanged when a field is missing, else
  append the cue. -/
  subMakerPush (st : SubMakerState) (msg : TTSChunk) : Except SubErr SubMakerState :=
    match msg.offset, msg.duration, msg.text with
    | some offset, some duration, some text =>
      let startMs : ℚ := (offset : ℚ) / 10000
      let durationMs : ℚ := (duration : ℚ) / 10000
      .ok (SubMakerState.mk
        (st.cues ++ [Subtitle.mk (st.cues.length + 1) startMs (startMs + durationMs) text])
        st.stype)
    | _, _, _ => .ok st

/-- Does a buffer contain an `&` with no `;` at or after it (the dangling
unterminated XML entity shape, expressed with the source's own
`lastIndexOf`/`indexOf` primitives)? -/
def hasDanglingAmp (b : Bytes) : Bool :=
  match lastIndexOfByte b 38 with
  | some a => (indexOfByteFrom b 59 a).isNone
  | none => false

/-- Modelled from the spec: `decodeBinary` as §4.3 words it — headers
parsed from bytes `[2, 2+L)`, payload after `2+L`.  For comparison with
the implementation's `decodeBinary`. -/
def decodeBinarySpec (buf : Bytes) : Except CommErr (Headers × Bytes) :=
  if buf.length < 2 then .error .binaryTooShort
  else
    let headerLen := buf.getD 0 0 * 256 + buf.getD 1 0
    if buf.length < headerLen then .error .headerLengthTooBig
    else .ok (parseHeaderLines (utf8Decode ((buf.drop 2).take headerLen)),
              buf.drop (2 + headerLen))

/-- Header block of the concrete audio frame used in the examples. -/
def exampleAudioHeaderBytes : Bytes :=
  str ("X-RequestId:1\r\nContent-Type:audio/mpeg\r\nPath:audio\r\n")

/-- A concrete well-formed binary audio frame: 2-byte big-endian header
length, header block, then 3 payload bytes. -/
def exampleAudioFrame : Bytes :=
  [exampleAudioHeaderBytes.length / 256, exampleAudioHeaderBytes.length % 256] ++
    exampleAudioHeaderBytes ++ [7, 7, 7]

/-- A JSON oracle whose every body parses to a single word-boundary item at
offset 1000000 and duration 500000 (the spec's golden scenario). -/
def exampleOracle : JsonOracle :=
  fun _ => .ok [MetaItem.mk (str ("WordBoundary")) 1000000 500000 (str ("hi"))]

/-- The spec's golden chunk: `turn.start`, one `audio.metadata` frame, one
binary audio frame, `turn.end`. -/
def goldenMsgs : List Msg :=
  [Msg.text (str ("Path:turn.start\r\n\r\n")),
   Msg.text (str ("Path:audio.metadata\r\n\r\n{}")),
   Msg.binary exampleAudioFrame,
   Msg.text (str ("Path:turn.end\r\n\r\n"))]

/-- A JSON oracle whose every body parses to two word-boundary items. -/
def twoBoundaryOracle : JsonOracle :=
  fun _ => .ok
    [MetaItem.mk (str ("WordBoundary")) 1000000 500000 (str ("hi")),
     MetaItem.mk (str ("WordBoundary")) 2000000 300000 (str ("yo"))]

/-- A JSON oracle that parses the body `\r\n\x7bw\x7d` (as cut out of a
text frame by `getHeadersAndData`) to a word-boundary item and any other
body to a sentence-boundary item. -/
def mixedBoundaryOracle : JsonOracle :=
  fun b =>
    if b = str ("\r\n{w}") then
      .ok [MetaItem.mk (str ("WordBoundary")) 2000000 300000 (str ("yo"))]
    else
      .ok [MetaItem.mk (str ("SentenceBoundary")) 1000000 500000 (str ("hi"))]

/-!
## Lemmas about the UTF-8 codec
-/

theorem utf8DecodeF_nil (f : Nat) : utf8DecodeF f [] = [] := by
  cases f <;> rfl

set_option maxHeartbeats 1000000 in
theorem utf8DecodeF_eq_W :
    ∀ (l : List Nat), ∀ f : Nat, l.length ≤ f → utf8DecodeF f l = utf8DecodeW l := by
  intro l
  induction l using utf8DecodeW.induct
  all_goals first
    | (intro f _; rw [utf8DecodeF_nil]; simp [utf8DecodeW])
    | (intro f hf
       obtain ⟨m, rfl⟩ : ∃ m, f = m + 1 :=
         ⟨f - 1, by simp only [List.length_cons] at hf; omega⟩
       conv_rhs => rw [utf8DecodeW.eq_def]
       simp only [utf8DecodeF, *, eq_self_iff_true, if_true, if_false, Bool.false_eq_true,
         List.cons.injEq, true_and]
       try rfl
       all_goals (apply_assumption; simp only [List.length_cons] at hf ⊢; omega))

theorem utf8Decode_eq_W (l : Bytes) : utf8Decode l = utf8DecodeW l :=
  utf8DecodeF_eq_W l l.length le_rfl

theorem utf8Encode_nil : utf8Encode [] = [] := rfl

theorem utf8Encode_cons (c : Nat) (s : List Nat) :
    utf8Encode (c :: s) = utf8EncodeChar c ++ utf8Encode s := by
  simp [utf8Encode]

theorem utf8Encode_append (s t : List Nat) :
    utf8Encode (s ++ t) = utf8Encode s ++ utf8Encode t := by
  simp [utf8Encode]

theorem utf8EncodeChar_length_pos (c : Nat) : 0 < (utf8EncodeChar c).length := by
  unfold utf8EncodeChar
  split_ifs <;> simp

theorem utf8EncodeChar_ascii {c : Nat} (h : c < 0x80) : utf8EncodeChar c = [c] := by
  simp [utf8EncodeChar, h]

theorem utf8EncodeChar_high {c : Nat} (h : 0x80 ≤ c) :
    ∀ b ∈ utf8EncodeChar c, 0x80 ≤ b := by
  unfold utf8EncodeChar
  split_ifs <;> intro b hb <;> simp at hb <;> omega

theorem utf8DecodeW_nil : utf8DecodeW [] = [] := by
  rw [utf8DecodeW]

theorem utf8DecodeW_encodeChar (c : Nat) (hs : IsScalar c) (rest : List Nat) :
    utf8DecodeW (utf8EncodeChar c ++ rest) = c :: utf8DecodeW rest := by
  obtain ⟨hlt, hsur⟩ := hs
  by_cases h1 : c < 0x80
  · rw [utf8EncodeChar, if_pos h1]
    conv_lhs => rw [List.cons_append, List.nil_append, utf8DecodeW.eq_def]
    simp only [h1, if_true]
  · by_cases h2 : c < 0x800
    · rw [utf8EncodeChar, if_neg h1, if_pos h2]
      have hb1 : ¬(192 + c / 64 < 128) := by omega
      have hb2 : 194 ≤ 192 + c / 64 ∧ 192 + c / 64 ≤ 223 := by omega
      have hc1 : contOK (128 + c % 64) = true := by
        simp only [contOK, Bool.and_eq_true, decide_eq_true_eq]; omega
      have hv : (192 + c / 64 - 192) * 64 + (128 + c % 64 - 128) = c := by omega
      conv_lhs =>
        rw [List.cons_append, List.cons_append, List.nil_append, utf8DecodeW.eq_def]
      simp only [hb1, hb2, hc1, eq_self_iff_true, true_and, and_true, if_true, if_false]
      rw [hv]
    · by_cases h3 : c < 0x10000
      · rw [utf8EncodeChar, if_neg h1, if_neg h2, if_pos h3]
        have hb1 : ¬(224 + c / 4096 < 128) := by omega
        have hb2 : ¬(194 ≤ 224 + c / 4096 ∧ 224 + c / 4096 ≤ 223) := by omega
        have hb3 : 224 ≤ 224 + c / 4096 ∧ 224 + c / 4096 ≤ 239 := by omega
        have hc1 : cont3OK (224 + c / 4096) (128 + c / 64 % 64) = true := by
          unfold cont3OK
          rcases hsur with hsur | hsur <;>
            (split_ifs with he hd <;>
              simp only [contOK, Bool.and_eq_true, decide_eq_true_eq] <;> omega)
        have hc2 : contOK (128 + c % 64) = true := by
          simp only [contOK, Bool.and_eq_true, decide_eq_true_eq]; omega
        have hv : (224 + c / 4096 - 224) * 4096 + (128 + c / 64 % 64 - 128) * 64 +
            (128 + c % 64 - 128) = c := by omega
        conv_lhs =>
          rw [List.cons_append, List.cons_append, List.cons_append, List.nil_append,
            utf8DecodeW.eq_def]
        simp only [hb1, hb2, hb3, hc1, hc2, eq_self_iff_true, true_and, and_true, if_true, if_false]
        rw [hv]
      · rw [utf8EncodeChar, if_neg h1, if_neg h2, if_neg h3]
        have hb1 : ¬(240 + c / 262144 < 128) := by omega
        have hb2 : ¬(194 ≤ 240 + c / 262144 ∧ 240 + c / 262144 ≤ 223) := by omega
        have hb3 : ¬(224 ≤ 240 + c / 262144 ∧ 240 + c / 262144 ≤ 239) := by omega
        have hb4 : 240 ≤ 240 + c / 262144 ∧ 240 + c / 262144 ≤ 244 := by omega
        have hc1 : cont4OK (240 + c / 262144) (128 + c / 4096 % 64) = true := by
          unfold cont4OK
          split_ifs with he hd <;>
            simp only [contOK, Bool.and_eq_true, decide_eq_true_eq] <;> omega
        have hc2 : contOK (128 + c / 64 % 64) = true := by
          simp only [contOK, Bool.and_eq_true, decide_eq_true_eq]; omega
        have hc3 : contOK (128 + c % 64) = true := by
          simp only [contOK, Bool.and_eq_true, decide_eq_true_eq]; omega
        have hv : (240 + c / 262144 - 240) * 262144 + (128 + c / 4096 % 64 - 128) * 4096 +
            (128 + c / 64 % 64 - 128) * 64 + (128 + c % 64 - 128) = c := by omega
        conv_lhs =>
          rw [List.cons_append, List.cons_append, List.cons_append, List.cons_append,
            List.nil_append, utf8DecodeW.eq_def]
        simp only [hb1, hb2, hb3, hb4, hc1, hc2, hc3, eq_self_iff_true, true_and, and_true, if_true, if_false]
        rw [hv]

theorem utf8DecodeW_encode_append (s : List Nat) (hs : ∀ c ∈ s, IsScalar c) (tail : List Nat) :
    utf8DecodeW (utf8Encode s ++ tail) = s ++ utf8DecodeW tail := by
  induction s with
  | nil => simp [utf8Encode_nil]
  | cons c s IH =>
    rw [utf8Encode_cons, List.append_assoc,
      utf8DecodeW_encodeChar c (hs c (by simp)) (utf8Encode s ++ tail),
      IH (fun d hd => hs d (by simp [hd]))]
    rfl

theorem utf8DecodeW_encode (s : List Nat) (hs : ∀ c ∈ s, IsScalar c) :
    utf8DecodeW (utf8Encode s) = s := by
  have := utf8DecodeW_encode_append s hs []
  simpa [utf8DecodeW_nil] using this

theorem utf8Decode_encode (s : List Nat) (hs : ∀ c ∈ s, IsScalar c) :
    utf8Decode (utf8Encode s) = s := by
  rw [utf8Decode_eq_W, utf8DecodeW_encode s hs]

theorem utf8DecodeW_encodeChar_partial (c : Nat) (hs : IsScalar c) (j : Nat)
    (h1 : 0 < j) (h2 : j < (utf8EncodeChar c).length) :
    utf8DecodeW ((utf8EncodeChar c).take j) = [0xFFFD] := by
  obtain ⟨hlt, hsur⟩ := hs
  by_cases hc1 : c < 0x80
  · rw [utf8EncodeChar_ascii hc1] at h2
    simp at h2
    omega
  · by_cases hc2 : c < 0x800
    · rw [utf8EncodeChar, if_neg hc1, if_pos hc2] at h2 ⊢
      simp only [List.length_cons, List.length_nil] at h2
      have hj : j = 1 := by omega
      subst hj
      conv_lhs => rw [show (([192 + c / 64, 128 + c % 64]).take 1) = [192 + c / 64] by rfl]
      rw [utf8DecodeW.eq_def]
      have hb1 : ¬(192 + c / 64 < 128) := by omega
      have hb2 : 194 ≤ 192 + c / 64 ∧ 192 + c / 64 ≤ 223 := by omega
      simp only [hb1, hb2, eq_self_iff_true, true_and, and_true, if_true, if_false]
    · by_cases hc3 : c < 0x10000
      · rw [utf8EncodeChar, if_neg hc1, if_neg hc2, if_pos hc3] at h2 ⊢
        simp only [List.length_cons, List.length_nil] at h2
        have hb1 : ¬(224 + c / 4096 < 128) := by omega
        have hb2 : ¬(194 ≤ 224 + c / 4096 ∧ 224 + c / 4096 ≤ 223) := by omega
        have hb3 : 224 ≤ 224 + c / 4096 ∧ 224 + c / 4096 ≤ 239 := by omega
        have hc1ok : cont3OK (224 + c / 4096) (128 + c / 64 % 64) = true := by
          unfold cont3OK
          rcases hsur with hsur | hsur <;>
            (split_ifs with he hd <;>
              simp only [contOK, Bool.and_eq_true, decide_eq_true_eq] <;> omega)
        interval_cases j
        · conv_lhs => rw [show (([224 + c / 4096, 128 + c / 64 % 64, 128 + c % 64]).take 1) =
              [224 + c / 4096] by rfl]
          rw [utf8DecodeW.eq_def]
          simp only [hb1, hb2, hb3, eq_self_iff_true, true_and, and_true, if_true, if_false]
        · conv_lhs => rw [show (([224 + c / 4096, 128 + c / 64 % 64, 128 + c % 64]).take 2) =
              [224 + c / 4096, 128 + c / 64 % 64] by rfl]
          rw [utf8DecodeW.eq_def]
          simp only [hb1, hb2, hb3, hc1ok, eq_self_iff_true, true_and, and_true, if_true, if_false]
      · rw [utf8EncodeChar, if_neg hc1, if_neg hc2, if_neg hc3] at h2 ⊢
        simp only [List.length_cons, List.length_nil] at h2
        have hb1 : ¬(240 + c / 262144 < 128) := by omega
        have hb2 : ¬(194 ≤ 240 + c / 262144 ∧ 240 + c / 262144 ≤ 223) := by omega
        have hb3 : ¬(224 ≤ 240 + c / 262144 ∧ 240 + c / 262144 ≤ 239) := by omega
        have hb4 : 240 ≤ 240 + c / 262144 ∧ 240 + c / 262144 ≤ 244 := by omega
        have hc1ok : cont4OK (240 + c / 262144) (128 + c / 4096 % 64) = true := by
          unfold cont4OK
          split_ifs with he hd <;>
            simp only [contOK, Bool.and_eq_true, decide_eq_true_eq] <;> omega
        have hc2ok : contOK (128 + c / 64 % 64) = true := by
          simp only [contOK, Bool.and_eq_true, decide_eq_true_eq]; omega
        interval_cases j
        · conv_lhs => rw [show (([240 + c / 262144, 128 + c / 4096 % 64, 128 + c / 64 % 64,
              128 + c % 64]).take 1) = [240 + c / 262144] by rfl]
          rw [utf8DecodeW.eq_def]
          simp only [hb1, hb2, hb3, hb4, eq_self_iff_true, true_and, and_true, if_true, if_false]
        · conv_lhs => rw [show (([240 + c / 262144, 128 + c / 4096 % 64, 128 + c / 64 % 64,
              128 + c % 64]).take 2) = [240 + c / 262144, 128 + c / 4096 % 64] by rfl]
          rw [utf8DecodeW.eq_def]
          simp only [hb1, hb2, hb3, hb4, hc1ok, eq_self_iff_true, true_and, and_true, if_true, if_false]
        · conv_lhs => rw [show (([240 + c / 262144, 128 + c / 4096 % 64, 128 + c / 64 % 64,
              128 + c % 64]).take 3) =
              [240 + c / 262144, 128 + c / 4096 % 64, 128 + c / 64 % 64] by rfl]
          rw [utf8DecodeW.eq_def]
          simp only [hb1, hb2, hb3, hb4, hc1ok, hc2ok, eq_self_iff_true, true_and, and_true, if_true, if_false]

theorem getD_mem_of_lt {l : List Nat} {i : Nat} (h : i < l.length) : l.getD i 0 ∈ l := by
  rw [List.getD_eq_getElem l 0 h]
  exact List.getElem_mem h

theorem utf8EncodeChar_lt_256 {c : Nat} (h : c < 0x110000) :
    ∀ b ∈ utf8EncodeChar c, b < 256 := by
  unfold utf8EncodeChar
  split_ifs <;> intro b hb <;> simp at hb <;> omega

theorem land128_eq_zero_iff {lb : Nat} (h : lb < 256) : lb &&& 0x80 = 0 ↔ lb < 0x80 := by
  have h1 : lb &&& 0x80 = (lb.testBit 7).toNat * 2 ^ 7 := Nat.and_two_pow lb 7
  have h2 : lb.testBit 7 = decide (lb / 2 ^ 7 % 2 = 1) := Nat.testBit_to_div_mod
  norm_num at h1 h2
  by_cases hd : lb / 128 % 2 = 1
  · have hbit : lb.testBit 7 = true := by rw [h2]; exact decide_eq_true hd
    rw [hbit] at h1
    norm_num at h1
    rw [h1]
    constructor <;> intro hc <;> omega
  · have hbit : lb.testBit 7 = false := by rw [h2]; exact decide_eq_false hd
    rw [hbit] at h1
    norm_num at h1
    rw [h1]
    constructor <;> intro hc <;> omega

theorem dropWhile_head?_not (p : Nat → Bool) (l : List Nat) :
    ∀ a, (l.dropWhile p).head? = some a → p a = false := by
  induction l with
  | nil => simp
  | cons x xs IH =>
    intro a ha
    rw [List.dropWhile_cons] at ha
    by_cases hp : p x
    · rw [if_pos hp] at ha
      exact IH a ha
    · rw [if_neg hp] at ha
      simp only [List.head?_cons, Option.some.injEq] at ha
      rw [← ha]
      exact Bool.not_eq_true _ |>.mp hp

/-!
## Lemmas about `jsTrim`
-/

theorem jsTrim_decomposition (s : List Nat) :
    ∃ w1 w2, s = w1 ++ jsTrim s ++ w2 ∧
      (∀ c ∈ w1, isJsWhitespace c) ∧ (∀ c ∈ w2, isJsWhitespace c) := by
  unfold jsTrim
  set t := s.dropWhile isJsWhitespace with ht
  refine ⟨s.takeWhile isJsWhitespace, (t.reverse.takeWhile isJsWhitespace).reverse, ?_, ?_, ?_⟩
  · conv_lhs => rw [← List.takeWhile_append_dropWhile isJsWhitespace s]
    rw [← ht, List.append_assoc]
    congr 1
    conv_lhs =>
      rw [show t = t.reverse.reverse by rw [List.reverse_reverse],
        ← List.takeWhile_append_dropWhile isJsWhitespace t.reverse]
    rw [List.reverse_append]
  · intro c hc
    exact List.mem_takeWhile_imp hc
  · intro c hc
    rw [List.mem_reverse] at hc
    exact List.mem_takeWhile_imp hc

theorem jsTrim_filter (s : List Nat) :
    (jsTrim s).filter (fun c => ! isJsWhitespace c) = s.filter (fun c => ! isJsWhitespace c) := by
  obtain ⟨w1, w2, hdec, hw1, hw2⟩ := jsTrim_decomposition s
  conv_rhs => rw [hdec]
  rw [List.filter_append, List.filter_append]
  have e1 : w1.filter (fun c => ! isJsWhitespace c) = [] := by
    rw [List.filter_eq_nil_iff]
    intro a ha
    simp [hw1 a ha]
  have e2 : w2.filter (fun c => ! isJsWhitespace c) = [] := by
    rw [List.filter_eq_nil_iff]
    intro a ha
    simp [hw2 a ha]
  rw [e1, e2]
  simp

theorem jsTrim_mem (s : List Nat) : ∀ c ∈ jsTrim s, c ∈ s := by
  obtain ⟨w1, w2, hdec, _, _⟩ := jsTrim_decomposition s
  intro c hc
  rw [hdec]
  simp [hc]

theorem jsTrim_head_getLast (s : List Nat) :
    (∀ a, (jsTrim s).head? = some a → ¬ isJsWhitespace a) ∧
    (∀ b, (jsTrim s).getLast? = some b → ¬ isJsWhitespace b) := by
  have hsplit : s.dropWhile isJsWhitespace =
      jsTrim s ++ ((s.dropWhile isJsWhitespace).reverse.takeWhile isJsWhitespace).reverse := by
    conv_lhs => rw [← List.reverse_reverse (s.dropWhile isJsWhitespace)]
    conv_lhs =>
      rw [← List.takeWhile_append_dropWhile isJsWhitespace
        (s.dropWhile isJsWhitespace).reverse]
    rw [List.reverse_append]
    rfl
  constructor
  · intro a ha
    have hth : (s.dropWhile isJsWhitespace).head? = some a := by
      rw [hsplit]
      cases hj : jsTrim s with
      | nil => rw [hj] at ha; simp at ha
      | cons x xs =>
        rw [hj] at ha
        simp only [List.head?_cons, Option.some.injEq] at ha
        simp [ha]
    have := dropWhile_head?_not isJsWhitespace s a hth
    simp [this]
  · intro b hb
    have hb' : ((s.dropWhile isJsWhitespace).reverse.dropWhile isJsWhitespace).head? =
        some b := by
      have he : jsTrim s =
          ((s.dropWhile isJsWhitespace).reverse.dropWhile isJsWhitespace).reverse := rfl
      rw [he, List.getLast?_reverse] at hb
      exact hb
    have := dropWhile_head?_not isJsWhitespace (s.dropWhile isJsWhitespace).reverse b hb'
    simp [this]

theorem jsTrim_idem (s : List Nat) : jsTrim (jsTrim s) = jsTrim s := by
  obtain ⟨hhead, hlast⟩ := jsTrim_head_getLast s
  have h1 : (jsTrim s).dropWhile isJsWhitespace = jsTrim s := by
    cases hv : jsTrim s with
    | nil => simp
    | cons x xs =>
      have hx := hhead x (by rw [hv]; rfl)
      rw [List.dropWhile_cons]
      simp [hx]
  have h2 : (jsTrim s).reverse.dropWhile isJsWhitespace = (jsTrim s).reverse := by
    cases hv : (jsTrim s).reverse with
    | nil => simp
    | cons x xs =>
      have hx : (jsTrim s).getLast? = some x := by
        rw [← List.head?_reverse, hv]
        rfl
      have := hlast x hx
      rw [List.dropWhile_cons]
      simp [this]
  conv_lhs => rw [jsTrim, h1, h2, List.reverse_reverse]

/-!
## Code point boundaries in encoded buffers
-/

theorem ascii_byte_split (s : List Nat) (hs : ∀ c ∈ s, IsScalar c) :
    ∀ i, i < (utf8Encode s).length → (utf8Encode s).getD i 0 < 0x80 →
      ∃ s1 c s2, s = s1 ++ c :: s2 ∧ (utf8Encode s1).length = i ∧ c < 0x80 ∧
        c = (utf8Encode s).getD i 0 := by
  induction s with
  | nil => intro i hi; simp [utf8Encode_nil] at hi
  | cons c t IH =>
    intro i hi hb
    rw [utf8Encode_cons] at hi hb ⊢
    by_cases hin : i < (utf8EncodeChar c).length
    · rw [List.getD_append _ _ _ _ hin] at hb
      by_cases hc : c < 0x80
      · rw [utf8EncodeChar_ascii hc] at hb hin
        simp only [List.length_cons, List.length_nil] at hin
        have hi0 : i = 0 := by omega
        subst hi0
        refine ⟨[], c, t, by simp, by simp [utf8Encode_nil], hc, ?_⟩
        rw [List.getD_append _ _ _ _ (by rw [utf8EncodeChar_ascii hc]; simp)]
        rw [utf8EncodeChar_ascii hc]
        rfl
      · exfalso
        have hmem : (utf8EncodeChar c).getD i 0 ∈ utf8EncodeChar c := getD_mem_of_lt hin
        have := utf8EncodeChar_high (by omega) _ hmem
        omega
    · push_neg at hin
      rw [List.length_append] at hi
      rw [List.getD_append_right _ _ _ _ hin] at hb
      obtain ⟨s1, c', s2, hsplit, hlen, hlt, hbyte⟩ :=
        IH (fun d hd => hs d (by simp [hd])) (i - (utf8EncodeChar c).length) (by omega) hb
      refine ⟨c :: s1, c', s2, by rw [hsplit]; simp, ?_, hlt, ?_⟩
      · rw [utf8Encode_cons, List.length_append, hlen]
        omega
      · rw [List.getD_append_right _ _ _ _ hin]
        exact hbyte

theorem encode_take_structure (s : List Nat) :
    ∀ k, k ≤ (utf8Encode s).length →
      (∃ s1 s2, s = s1 ++ s2 ∧ (utf8Encode s1).length = k) ∨
      (∃ s1 c s2 j, s = s1 ++ c :: s2 ∧ 0 < j ∧ j < (utf8EncodeChar c).length ∧
        k = (utf8Encode s1).length + j) := by
  induction s with
  | nil =>
    intro k hk
    left
    rw [utf8Encode_nil] at hk
    simp at hk
    exact ⟨[], [], by simp, by simp [utf8Encode_nil, hk]⟩
  | cons c t IH =>
    intro k hk
    by_cases hk0 : k = 0
    · left
      exact ⟨[], c :: t, by simp, by simp [utf8Encode_nil, hk0]⟩
    · by_cases hin : k < (utf8EncodeChar c).length
      · right
        exact ⟨[], c, t, k, by simp, by omega, hin, by simp [utf8Encode_nil]⟩
      · push_neg at hin
        rw [utf8Encode_cons, List.length_append] at hk
        rcases IH (k - (utf8EncodeChar c).length) (by omega) with
          ⟨s1, s2, hsplit, hlen⟩ | ⟨s1, d, s2, j, hsplit, hj0, hjlt, hke⟩
        · left
          refine ⟨c :: s1, s2, by rw [hsplit]; simp, ?_⟩
          rw [utf8Encode_cons, List.length_append, hlen]
          omega
        · right
          refine ⟨c :: s1, d, s2, j, by rw [hsplit]; simp, hj0, hjlt, ?_⟩
          rw [utf8Encode_cons, List.length_append]
          omega

theorem take_encode_boundary (s1 s2 : List Nat) :
    (utf8Encode (s1 ++ s2)).take (utf8Encode s1).length = utf8Encode s1 ∧
    (utf8Encode (s1 ++ s2)).drop (utf8Encode s1).length = utf8Encode s2 := by
  rw [utf8Encode_append]
  exact ⟨List.take_left _ _, List.drop_left _ _⟩

theorem take_encode_partial (s1 : List Nat) (c : Nat) (s2 : List Nat) (j : Nat)
    (hj : j ≤ (utf8EncodeChar c).length) :
    (utf8Encode (s1 ++ c :: s2)).take ((utf8Encode s1).length + j) =
      utf8Encode s1 ++ (utf8EncodeChar c).take j := by
  rw [utf8Encode_append, List.take_append, utf8Encode_cons,
    List.take_append_of_le_length hj]

theorem utf8DecodeW_take_partial (s1 : List Nat) (hs1 : ∀ c ∈ s1, IsScalar c)
    (c : Nat) (hc : IsScalar c) (j : Nat) (hj0 : 0 < j) (hjl : j < (utf8EncodeChar c).length) :
    utf8DecodeW (utf8Encode s1 ++ (utf8EncodeChar c).take j) = s1 ++ [0xFFFD] := by
  rw [utf8DecodeW_encode_append s1 hs1, utf8DecodeW_encodeChar_partial c hc j hj0 hjl]

/-!
## The split-point helpers return code point boundaries
-/

theorem lastIndexOfByte_some (l : List Nat) (v : Nat) :
    ∀ i, lastIndexOfByte l v = some i → i < l.length ∧ l.getD i 0 = v := by
  induction l with
  | nil => intro i hi; simp [lastIndexOfByte] at hi
  | cons b t IH =>
    intro i hi
    rw [lastIndexOfByte] at hi
    cases ht : lastIndexOfByte t v with
    | some k =>
      rw [ht] at hi
      simp only [Option.some.injEq] at hi
      obtain ⟨hk1, hk2⟩ := IH k ht
      subst hi
      constructor
      · simp; omega
      · simpa using hk2
    | none =>
      rw [ht] at hi
      by_cases hb : b = v
      · rw [if_pos hb] at hi
        simp only [Option.some.injEq] at hi
        subst hi
        exact ⟨by simp, by simpa using hb⟩
      · rw [if_neg hb] at hi
        simp at hi

theorem firstIndexOfByte_none (l : List Nat) (v : Nat) :
    firstIndexOfByte l v = none → ∀ j, j < l.length → l.getD j 0 ≠ v := by
  induction l with
  | nil => intro _ j hj; simp at hj
  | cons b t IH =>
    intro hn j hj
    rw [firstIndexOfByte] at hn
    by_cases hb : b = v
    · rw [if_pos hb] at hn; simp at hn
    · rw [if_neg hb] at hn
      simp only [Option.map_eq_none'] at hn
      cases j with
      | zero => simpa using hb
      | succ j =>
        simp only [List.length_cons] at hj
        have := IH hn j (by omega)
        simpa using this

theorem indexOfByteFrom_none (l : List Nat) (v start : Nat) :
    indexOfByteFrom l v start = none → ∀ j, start ≤ j → j < l.length → l.getD j 0 ≠ v := by
  intro hn j hj1 hj2
  rw [indexOfByteFrom] at hn
  simp only [Option.map_eq_none'] at hn
  have := firstIndexOfByte_none _ v hn (j - start) (by rw [List.length_drop]; omega)
  intro he
  apply this
  rw [List.getD_eq_getElem _ 0 (by rw [List.length_drop]; omega)]
  rw [List.getElem_drop]
  have hidx : start + (j - start) = j := by omega
  simp only [hidx]
  rw [List.getD_eq_getElem _ 0 (by omega)] at he
  exact he

theorem adjust_cases (text : Bytes) (k : Nat) :
    adjustSplitPointForXmlEntity text k = k ∨
    (adjustSplitPointForXmlEntity text k < k ∧
      text.getD (adjustSplitPointForXmlEntity text k) 0 = 38) := by
  cases ha : lastIndexOfByte (text.take k) 38 with
  | none =>
    left
    unfold adjustSplitPointForXmlEntity
    simp only [ha]
  | some a =>
    cases hsc : indexOfByteFrom (text.take k) 59 a with
    | some i =>
      left
      unfold adjustSplitPointForXmlEntity
      simp only [ha, hsc]
    | none =>
      have heq : adjustSplitPointForXmlEntity text k = a := by
        unfold adjustSplitPointForXmlEntity
        simp only [ha, hsc]
      right
      rw [heq]
      obtain ⟨ha1, ha2⟩ := lastIndexOfByte_some _ 38 a ha
      rw [List.length_take] at ha1
      have halt : a < k := by omega
      have halen : a < text.length := by omega
      constructor
      · exact halt
      · rw [List.getD_eq_getElem _ 0 halen]
        rw [List.getD_eq_getElem _ 0 (by rw [List.length_take]; omega)] at ha2
        rw [List.getElem_take] at ha2
        exact ha2

theorem findSafeGo_zero (seg : Bytes) : findSafeGo seg 0 = 0 := rfl

theorem findSafeGo_succ_cases (seg : Bytes) (k : Nat) :
    findSafeGo seg (k + 1) = k + 1 ∨ findSafeGo seg (k + 1) = findSafeGo seg k := by
  rw [findSafeGo]
  cases (seg.take (k + 1)).getLast? with
  | none =>
    dsimp only
    by_cases h : (utf8Encode (utf8Decode (seg.take (k + 1)))).length =
        (seg.take (k + 1)).length ∧ ¬ endsWithFFFD (utf8Decode (seg.take (k + 1)))
    · rw [if_pos h]
      left
      rfl
    · rw [if_neg h]
      right
      rfl
  | some lb =>
    dsimp only
    by_cases h1 : lb &&& 0x80 = 0
    · rw [if_pos h1]
      left
      rfl
    · rw [if_neg h1]
      by_cases h2 : (utf8Encode (utf8Decode (seg.take (k + 1)))).length =
          (seg.take (k + 1)).length ∧ ¬ endsWithFFFD (utf8Decode (seg.take (k + 1)))
      · rw [if_pos h2]
        left
        rfl
      · rw [if_neg h2]
        right
        rfl

theorem getLast?_mem_of_eq {l : List Nat} {a : Nat} (h : l.getLast? = some a) : a ∈ l := by
  obtain ⟨hne, heq⟩ := List.mem_getLast?_eq_getLast (show a ∈ l.getLast? from by rw [h]; rfl)
  rw [heq]
  exact List.getLast_mem hne

theorem findSafeGo_boundary (s : List Nat) (hs : ∀ c ∈ s, IsScalar c) (L : Nat)
    (hL : L ≤ (utf8Encode s).length) :
    ∀ k, k ≤ L →
      findSafeGo ((utf8Encode s).take L) k ≤ k ∧
      ∃ s1 s2, s = s1 ++ s2 ∧
        (utf8Encode s1).length = findSafeGo ((utf8Encode s).take L) k := by
  intro k
  induction k with
  | zero =>
    intro _
    rw [findSafeGo_zero]
    exact ⟨le_rfl, [], s, by simp, by simp [utf8Encode_nil]⟩
  | succ k IH =>
    intro hk1
    have hsub : ((utf8Encode s).take L).take (k + 1) = (utf8Encode s).take (k + 1) := by
      rw [List.take_take]
      congr 1
      omega
    rcases encode_take_structure s (k + 1) (by omega) with
      ⟨s1, s2, hsplit, hlen⟩ | ⟨s1, c, s2, j, hsplit, hj0, hjlt, hke⟩
    · -- k + 1 is a code point boundary: both possible results are fine
      rcases findSafeGo_succ_cases ((utf8Encode s).take L) k with hres | hres
      · rw [hres]
        exact ⟨le_rfl, s1, s2, hsplit, by omega⟩
      · rw [hres]
        obtain ⟨hle, hbnd⟩ := IH (by omega)
        exact ⟨by omega, hbnd⟩
    · -- k + 1 cuts the encoding of `c`: both checks fail, so the loop recurses
      have hcs : IsScalar c := hs c (by rw [hsplit]; simp)
      have hs1 : ∀ d ∈ s1, IsScalar d := fun d hd => hs d (by rw [hsplit]; simp [hd])
      have hclen2 : ¬ c < 0x80 := by
        intro hc
        rw [utf8EncodeChar_ascii hc] at hjlt
        simp at hjlt
        omega
      have hq : (utf8Encode s).take (k + 1) =
          utf8Encode s1 ++ (utf8EncodeChar c).take j := by
        rw [hsplit, hke]
        exact take_encode_partial s1 c s2 j (by omega)
      have hqne : (utf8EncodeChar c).take j ≠ [] := by
        intro hx
        have hl := congrArg List.length hx
        rw [List.length_take] at hl
        simp only [List.length_nil] at hl
        rw [inf_eq_left.mpr (le_of_lt hjlt)] at hl
        omega
      obtain ⟨lb, hlb⟩ : ∃ a, ((utf8EncodeChar c).take j).getLast? = some a := by
        cases hgl : ((utf8EncodeChar c).take j).getLast? with
        | none => exact absurd (List.getLast?_eq_none_iff.mp hgl) hqne
        | some a => exact ⟨a, rfl⟩
      have hlbmem : lb ∈ utf8EncodeChar c :=
        List.take_subset j _ (getLast?_mem_of_eq hlb)
      have hlbhi : 0x80 ≤ lb := utf8EncodeChar_high (by omega) lb hlbmem
      have hlb256 : lb < 256 := utf8EncodeChar_lt_256 hcs.1 lb hlbmem
      have hlast : (((utf8Encode s).take L).take (k + 1)).getLast? = some lb := by
        rw [hsub, hq, List.getLast?_append_of_ne_nil _ hqne, hlb]
      have hdec : utf8Decode (((utf8Encode s).take L).take (k + 1)) = s1 ++ [0xFFFD] := by
        rw [hsub, hq, utf8Decode_eq_W]
        exact utf8DecodeW_take_partial s1 hs1 c hcs j hj0 hjlt
      have hb1 : ¬ (lb &&& 0x80 = 0) := by
        rw [land128_eq_zero_iff hlb256]
        omega
      have hb2 : ¬ ((utf8Encode (utf8Decode (((utf8Encode s).take L).take (k + 1)))).length =
          (((utf8Encode s).take L).take (k + 1)).length ∧
          ¬ endsWithFFFD (utf8Decode (((utf8Encode s).take L).take (k + 1)))) := by
        intro hcon
        apply hcon.2
        rw [hdec]
        unfold endsWithFFFD
        rw [List.getLast?_concat]
        rfl
      have hres : findSafeGo ((utf8Encode s).take L) (k + 1) =
          findSafeGo ((utf8Encode s).take L) k := by
        rw [findSafeGo]
        try dsimp only
        rw [hlast]
        try dsimp only
        rw [if_neg hb1, if_neg hb2]
      rw [hres]
      obtain ⟨hle, hbnd⟩ := IH (by omega)
      exact ⟨by omega, hbnd⟩

theorem findSafeUtf8SplitPoint_boundary (s : List Nat) (hs : ∀ c ∈ s, IsScalar c) (L : Nat)
    (hL : L ≤ (utf8Encode s).length) :
    findSafeUtf8SplitPoint ((utf8Encode s).take L) ≤ L ∧
    ∃ s1 s2, s = s1 ++ s2 ∧
      (utf8Encode s1).length = findSafeUtf8SplitPoint ((utf8Encode s).take L) := by
  unfold findSafeUtf8SplitPoint
  have hlen : ((utf8Encode s).take L).length = L := by
    rw [List.length_take]
    omega
  rw [hlen]
  exact findSafeGo_boundary s hs L hL L le_rfl

theorem findLastNewlineOrSpace_cases (text : Bytes) (limit : Nat) :
    findLastNewlineOrSpaceWithinLimit text limit = -1 ∨
    ∃ i : Nat, findLastNewlineOrSpaceWithinLimit text limit = (i : Int) ∧
      i < (text.take limit).length ∧
      ((text.take limit).getD i 0 = 10 ∨ (text.take limit).getD i 0 = 32) := by
  cases h10 : lastIndexOfByte (text.take limit) 10 with
  | some i =>
    right
    obtain ⟨h1, h2⟩ := lastIndexOfByte_some _ 10 i h10
    refine ⟨i, ?_, h1, Or.inl h2⟩
    unfold findLastNewlineOrSpaceWithinLimit
    simp only [h10]
  | none =>
    cases h32 : lastIndexOfByte (text.take limit) 32 with
    | some i =>
      right
      obtain ⟨h1, h2⟩ := lastIndexOfByte_some _ 32 i h32
      refine ⟨i, ?_, h1, Or.inr h2⟩
      unfold findLastNewlineOrSpaceWithinLimit
      simp only [h10, h32]
    | none =>
      left
      unfold findLastNewlineOrSpaceWithinLimit
      simp only [h10, h32]

theorem adjust_preserves_boundary (s : List Nat) (hs : ∀ c ∈ s, IsScalar c) (k : Nat)
    (hbk : ∃ s1 s2, s = s1 ++ s2 ∧ (utf8Encode s1).length = k) :
    adjustSplitPointForXmlEntity (utf8Encode s) k ≤ k ∧
    ∃ s1 s2, s = s1 ++ s2 ∧
      (utf8Encode s1).length = adjustSplitPointForXmlEntity (utf8Encode s) k := by
  rcases adjust_cases (utf8Encode s) k with h | ⟨hlt, hbyte⟩
  · rw [h]
    exact ⟨le_rfl, hbk⟩
  · refine ⟨by omega, ?_⟩
    obtain ⟨t1, t2, hsplit', hlen'⟩ := hbk
    have hkle : k ≤ (utf8Encode s).length := by
      rw [hsplit', utf8Encode_append, List.length_append]
      omega
    obtain ⟨s1, c, s2, hsp, hlen, _, _⟩ :=
      ascii_byte_split s hs (adjustSplitPointForXmlEntity (utf8Encode s) k)
        (by omega) (by rw [hbyte]; norm_num)
    exact ⟨s1, c :: s2, hsp, hlen⟩

theorem preSplitPoint_boundary (s : List Nat) (hs : ∀ c ∈ s, IsScalar c) (bl : Nat)
    (hbl : bl < (utf8Encode s).length) :
    (if findLastNewlineOrSpaceWithinLimit (utf8Encode s) bl < 0
      then findSafeUtf8SplitPoint ((utf8Encode s).take bl)
      else (findLastNewlineOrSpaceWithinLimit (utf8Encode s) bl).toNat) ≤ bl ∧
    ∃ s1 s2, s = s1 ++ s2 ∧ (utf8Encode s1).length =
      (if findLastNewlineOrSpaceWithinLimit (utf8Encode s) bl < 0
        then findSafeUtf8SplitPoint ((utf8Encode s).take bl)
        else (findLastNewlineOrSpaceWithinLimit (utf8Encode s) bl).toNat) := by
  rcases findLastNewlineOrSpace_cases (utf8Encode s) bl with hneg | ⟨i, heq, hilt, hbyte⟩
  · rw [hneg, if_pos (show (-1 : Int) < 0 by norm_num)]
    exact findSafeUtf8SplitPoint_boundary s hs bl (by omega)
  · rw [heq]
    have hnn : ¬ ((i : Int) < 0) := by omega
    rw [if_neg hnn]
    simp only [Int.toNat_natCast]
    have hilt' := hilt
    rw [List.length_take] at hilt
    have hm1 : bl ⊓ (utf8Encode s).length ≤ bl := inf_le_left
    have hm2 : bl ⊓ (utf8Encode s).length ≤ (utf8Encode s).length := inf_le_right
    have hilen : i < (utf8Encode s).length := by omega
    have hbyte' : (utf8Encode s).getD i 0 < 0x80 := by
      rw [List.getD_eq_getElem _ 0 hilen]
      rw [List.getD_eq_getElem _ 0 hilt'] at hbyte
      rw [List.getElem_take] at hbyte
      omega
    obtain ⟨s1, c, s2, hsp, hlen, _, _⟩ := ascii_byte_split s hs i hilen hbyte'
    exact ⟨by omega, s1, c :: s2, hsp, hlen⟩

theorem utf8Encode_ne_nil {d : List Nat} (h : d ≠ []) : utf8Encode d ≠ [] := by
  cases d with
  | nil => exact absurd rfl h
  | cons c t =>
    rw [utf8Encode_cons]
    intro hx
    have h1 := congrArg List.length hx
    rw [List.length_append] at h1
    simp only [List.length_nil] at h1
    have h2 := utf8EncodeChar_length_pos c
    omega

theorem encode_jsTrim_le (d : List Nat) :
    (utf8Encode (jsTrim d)).length ≤ (utf8Encode d).length := by
  obtain ⟨w1, w2, hdec, _, _⟩ := jsTrim_decomposition d
  conv_rhs => rw [hdec]
  rw [utf8Encode_append, utf8Encode_append, List.length_append, List.length_append]
  omega

/-!
## Soundness of the segmenter loop
-/

theorem splitLoopF_sound :
    ∀ (fuel : Nat) (s : List Nat) (bl : Nat),
      (∀ c ∈ s, IsScalar c) → 1 ≤ bl → (utf8Encode s).length < fuel →
      ∀ chunks, splitLoopF fuel (utf8Encode s) bl = .ok chunks →
        (∀ ch ∈ chunks,
           ch.length ≤ bl ∧ ch ≠ [] ∧
           ∃ d, (∀ c ∈ d, IsScalar c) ∧ jsTrim d = d ∧ ch = utf8Encode d) ∧
        (chunks.map (fun ch => (utf8Decode ch).filter (fun c => ! isJsWhitespace c))).flatten
          = s.filter (fun c => ! isJsWhitespace c) := by
  intro fuel
  induction fuel with
  | zero =>
    intro s bl _ _ hlen
    omega
  | succ fuel IH =>
    intro s bl hs hbl hlen chunks hok
    rw [splitLoopF] at hok
    by_cases hcase : bl < (utf8Encode s).length
    · rw [if_pos hcase] at hok
      simp only at hok
      obtain ⟨hkle, hkbnd⟩ := preSplitPoint_boundary s hs bl hcase
      obtain ⟨hsple, s1, s2, hsplit, hsplen⟩ :=
        adjust_preserves_boundary s hs _ hkbnd
      set sp := adjustSplitPointForXmlEntity (utf8Encode s)
        (if findLastNewlineOrSpaceWithinLimit (utf8Encode s) bl < 0
          then findSafeUtf8SplitPoint ((utf8Encode s).take bl)
          else (findLastNewlineOrSpaceWithinLimit (utf8Encode s) bl).toNat) with hspdef
      by_cases hsp0 : sp = 0
      · rw [if_pos hsp0] at hok
        exact absurd hok (by simp)
      · rw [if_neg hsp0] at hok
        have hs1 : ∀ c ∈ s1, IsScalar c := fun c hc => hs c (by rw [hsplit]; simp [hc])
        have hs2 : ∀ c ∈ s2, IsScalar c := fun c hc => hs c (by rw [hsplit]; simp [hc])
        have hchunk : (utf8Encode s).take sp = utf8Encode s1 := by
          rw [hsplit, ← hsplen]
          exact (take_encode_boundary s1 s2).1
        have hdrop : (utf8Encode s).drop sp = utf8Encode s2 := by
          rw [hsplit, ← hsplen]
          exact (take_encode_boundary s1 s2).2
        rw [hdrop] at hok
        cases hrec : splitLoopF fuel (utf8Encode s2) bl with
        | error e =>
          rw [hrec] at hok
          exact absurd hok (by simp)
        | ok rest =>
          rw [hrec] at hok
          have hs2len : (utf8Encode s2).length < fuel := by
            have h1 : (utf8Encode s).length =
                (utf8Encode s1).length + (utf8Encode s2).length := by
              rw [hsplit, utf8Encode_append, List.length_append]
            omega
          obtain ⟨hrprops, hrcat⟩ := IH s2 bl hs2 hbl hs2len rest hrec
          have hdecchunk : utf8Decode ((utf8Encode s).take sp) = s1 := by
            rw [hchunk]
            exact utf8Decode_encode s1 hs1
          rw [hdecchunk] at hok
          simp only [Except.ok.injEq] at hok
          have htrimsc : ∀ c ∈ jsTrim s1, IsScalar c :=
            fun c hc => hs1 c (jsTrim_mem s1 c hc)
          by_cases htne : jsTrim s1 ≠ []
          · rw [if_pos htne] at hok
            subst hok
            constructor
            · intro ch hch
              rcases List.mem_cons.mp hch with hch | hch
              · subst hch
                refine ⟨?_, utf8Encode_ne_nil htne, jsTrim s1, htrimsc, jsTrim_idem s1, rfl⟩
                have h1 := encode_jsTrim_le s1
                omega
              · exact (hrprops ch hch)
            · simp only [List.map_cons, List.flatten_cons, hrcat]
              rw [utf8Decode_encode _ htrimsc, jsTrim_filter, hsplit, List.filter_append]
          · rw [if_neg htne] at hok
            subst hok
            push_neg at htne
            constructor
            · exact hrprops
            · rw [hrcat, hsplit, List.filter_append]
              have : s1.filter (fun c => ! isJsWhitespace c) = [] := by
                rw [← jsTrim_filter, htne]
                rfl
              rw [this]
              rfl
    · rw [if_neg hcase] at hok
      simp only [Except.ok.injEq] at hok
      push_neg at hcase
      have htrimsc : ∀ c ∈ jsTrim (utf8Decode (utf8Encode s)), IsScalar c := by
        rw [utf8Decode_encode s hs]
        exact fun c hc => hs c (jsTrim_mem s c hc)
      by_cases htne : jsTrim (utf8Decode (utf8Encode s)) ≠ []
      · rw [if_pos htne] at hok
        subst hok
        constructor
        · intro ch hch
          rcases List.mem_cons.mp hch with hch | hch
          · subst hch
            refine ⟨?_, utf8Encode_ne_nil htne, _, htrimsc, jsTrim_idem _, rfl⟩
            rw [utf8Decode_encode s hs]
            have h1 := encode_jsTrim_le s
            omega
          · simp at hch
        · simp only [List.map_cons, List.map_nil, List.flatten_cons, List.flatten_nil,
            List.append_nil]
          rw [utf8Decode_encode _ htrimsc]
          rw [utf8Decode_encode s hs, jsTrim_filter]
      · rw [if_neg htne] at hok
        subst hok
        push_neg at htne
        constructor
        · intro ch hch
          simp at hch
        · rw [utf8Decode_encode s hs] at htne
          simp only [List.map_nil, List.flatten_nil]
          rw [← jsTrim_filter, htne]
          rfl

theorem firstIndexOfByte_some (l : List Nat) (v : Nat) :
    ∀ i, firstIndexOfByte l v = some i → i < l.length ∧ l.getD i 0 = v := by
  induction l with
  | nil => intro i hi; simp [firstIndexOfByte] at hi
  | cons b t IH =>
    intro i hi
    rw [firstIndexOfByte] at hi
    by_cases hb : b = v
    · rw [if_pos hb] at hi
      simp only [Option.some.injEq] at hi
      subst hi
      exact ⟨by simp, by simpa using hb⟩
    · rw [if_neg hb] at hi
      cases hf : firstIndexOfByte t v with
      | none => rw [hf] at hi; simp at hi
      | some k =>
        rw [hf] at hi
        simp at hi
        obtain ⟨h1, h2⟩ := IH k hf
        subst hi
        exact ⟨by simp; omega, by simpa using h2⟩

/-- C5: as stated the claim is false (the split loop can throw before
yielding anything, see the counterexample); amended to runs on which the
generator completes, all of its parts hold.  The "non-whitespace bytes"
equation is stated on decoded code points, which is equivalent for the
valid-UTF-8 chunks the function produces.  Conjunct 2 is the
`maxBytes ≤ 0` failure. -/
theorem c5_segmenter_properties :
    (∀ (s : List Nat) (byteLength : Int), (∀ c ∈ s, IsScalar c) → s ≠ [] →
      0 < byteLength →
      ∀ chunks, splitTextByByteLength (utf8Encode s) byteLength = .ok chunks →
        (∀ ch ∈ chunks,
           ch.length ≤ byteLength.toNat ∧ ch ≠ [] ∧
           utf8Encode (jsTrim (utf8Decode ch)) = ch) ∧
        (chunks.map (fun ch => (utf8Decode ch).filter (fun c => ! isJsWhitespace c))).flatten
          = s.filter (fun c => ! isJsWhitespace c)) ∧
    (∀ (text : Bytes) (byteLength : Int), byteLength ≤ 0 →
      splitTextByByteLength text byteLength = .error .invalidByteLength) := by
  constructor
  · intro s bl hs _ hbl chunks hok
    unfold splitTextByByteLength at hok
    rw [if_neg (by omega)] at hok
    obtain ⟨hprops, hcat⟩ :=
      splitLoopF_sound ((utf8Encode s).length + 1) s bl.toNat hs (by omega) (by omega)
        chunks hok
    refine ⟨?_, hcat⟩
    intro ch hch
    obtain ⟨hlen, hne', d, hd, htrim, hche⟩ := hprops ch hch
    refine ⟨hlen, hne', ?_⟩
    rw [hche, utf8Decode_encode d hd, htrim]
  · intro text bl hbl
    unfold splitTextByByteLength
    rw [if_pos hbl]

/-- C5 witness: the amended claim applied to the concrete input
`"hello world"` with `maxBytes = 7`, which splits into `"hello"` and
`"world"`. -/
theorem c5_witness :
    (∀ c ∈ str ("hello world"), IsScalar c) ∧ str ("hello world") ≠ [] ∧
    (0 : Int) < 7 ∧
    splitTextByByteLength (utf8Encode (str ("hello world"))) 7 =
      .ok [str ("hello"), str ("world")] ∧
    ((∀ ch ∈ [str ("hello"), str ("world")],
        ch.length ≤ (7 : Int).toNat ∧ ch ≠ [] ∧
        utf8Encode (jsTrim (utf8Decode ch)) = ch) ∧
      (([str ("hello"), str ("world")]).map
        (fun ch => (utf8Decode ch).filter (fun c => ! isJsWhitespace c))).flatten
        = (str ("hello world")).filter (fun c => ! isJsWhitespace c)) :=
  ⟨by decide, by decide, by decide, by decide,
   c5_segmenter_properties.1 (str ("hello world")) 7 (by decide) (by decide) (by decide)
     [str ("hello"), str ("world")] (by decide)⟩

/-- C5 counterexample: `"&abc"` is non-empty and `maxBytes = 2 > 0`, yet
the claimed run yields no chunks at all — the function throws
`Maximum byte length too small for text structure`, so the claimed
concatenation property fails as stated. -/
theorem c5_counterexample :
    str ("&abc") ≠ [] ∧ (0 : Int) < 2 ∧
    splitTextByByteLength (utf8Encode (str ("&abc"))) 2 =
      .error .maxByteLengthTooSmall := by decide

/-- C6: as stated the claim is false (see the counterexample: chunks can
retain a dangling `&`); amended: (1) no chunk ever ends in the middle of a
multi-byte UTF-8 code point — every yielded chunk is the exact encoding of
a code point list; (2) the XML-entity adjustment only guarantees that when
the last `&` before the tentative split has no `;` before the split, the
split moves back to that `&`'s index. -/
theorem c6_no_midcodepoint_and_entity_adjustment :
    (∀ (s : List Nat) (byteLength : Int), (∀ c ∈ s, IsScalar c) →
      ∀ chunks ch, splitTextByByteLength (utf8Encode s) byteLength = .ok chunks →
        ch ∈ chunks → ∃ d, (∀ c ∈ d, IsScalar c) ∧ ch = utf8Encode d) ∧
    (∀ (text : Bytes) (k a : Nat), lastIndexOfByte (text.take k) 38 = some a →
      (∀ j, j < k → a ≤ j → j < text.length → text.getD j 0 ≠ 59) →
      adjustSplitPointForXmlEntity text k = a) := by
  constructor
  · intro s bl hs chunks ch hok hch
    unfold splitTextByByteLength at hok
    by_cases hbl : bl ≤ 0
    · rw [if_pos hbl] at hok
      exact absurd hok (by simp)
    · rw [if_neg hbl] at hok
      obtain ⟨hprops, _⟩ :=
        splitLoopF_sound ((utf8Encode s).length + 1) s bl.toNat hs (by omega) (by omega)
          chunks hok
      obtain ⟨_, _, d, hd, _, hche⟩ := hprops ch hch
      exact ⟨d, hd, hche⟩
  · intro text k a ha hnone
    cases hsc : indexOfByteFrom (text.take k) 59 a with
    | none =>
      unfold adjustSplitPointForXmlEntity
      simp only [ha, hsc]
    | some i =>
      exfalso
      rw [indexOfByteFrom] at hsc
      cases hfst : firstIndexOfByte ((text.take k).drop a) 59 with
      | none => rw [hfst] at hsc; simp at hsc
      | some m =>
        obtain ⟨hm1, hm2⟩ := firstIndexOfByte_some _ 59 m hfst
        rw [List.length_drop, List.length_take] at hm1
        have hk1 : k ⊓ text.length ≤ k := inf_le_left
        have hk2 : k ⊓ text.length ≤ text.length := inf_le_right
        apply hnone (a + m) (by omega) (by omega) (by omega)
        rw [List.getD_eq_getElem _ 0 (by omega)]
        rw [List.getD_eq_getElem _ 0 (by rw [List.length_drop, List.length_take]; omega)]
          at hm2
        rw [List.getElem_drop] at hm2
        rw [List.getElem_take] at hm2
        exact hm2

/-- C6 witness: part 1 applied to the `"hello world"` split; part 2
applied to `"ab&cd"` with tentative split 4, whose last `&` (index 2) is
unterminated, so the split moves back to 2. -/
theorem c6_witness :
    (∃ d, (∀ c ∈ d, IsScalar c) ∧ str ("hello") = utf8Encode d) ∧
    adjustSplitPointForXmlEntity (str ("ab&cd")) 4 = 2 :=
  ⟨c6_no_midcodepoint_and_entity_adjustment.1 (str ("hello world")) 7 (by decide)
      [str ("hello"), str ("world")] (str ("hello")) (by decide) (by decide),
   c6_no_midcodepoint_and_entity_adjustment.2 (str ("ab&cd")) 4 2 (by decide) (by decide)⟩

/-- C6 counterexample: splitting `"&x&yz"` at `maxBytes = 4` yields the
chunks `"&x"` and `"&yz"`, both of which end with a dangling unterminated
`&` (an `&` with no following `;` inside the chunk). -/
theorem c6_counterexample :
    (∀ c ∈ str ("&x&yz"), IsScalar c) ∧ (0 : Int) < 4 ∧
    splitTextByByteLength (utf8Encode (str ("&x&yz"))) 4 =
      .ok [str ("&x"), str ("&yz")] ∧
    hasDanglingAmp (str ("&x")) = true ∧ hasDanglingAmp (str ("&yz")) = true := by decide

/-!
## The frame header parser
-/

theorem take_min_length (b : Bytes) (n : Nat) : b.take (min n b.length) = b.take n := by
  rcases le_total n b.length with h | h
  · rw [min_eq_left h]
  · rw [min_eq_right h, List.take_length, List.take_of_length_le h]

theorem drop_min_length (b : Bytes) (n : Nat) : b.drop (min n b.length) = b.drop n := by
  rcases le_total n b.length with h | h
  · rw [min_eq_left h]
  · rw [min_eq_right h, List.drop_length, (List.drop_eq_nil_iff).mpr h]

theorem jsSubarray_zero_nat (b : Bytes) (n : Nat) :
    jsSubarray b 0 (n : Int) = b.take n := by
  unfold jsSubarray clampIndex
  rw [if_neg (by omega), if_neg (by omega)]
  simp only [Int.toNat_natCast, Int.toNat_zero]
  rw [Nat.zero_min, List.drop_zero, take_min_length]

theorem jsSubarrayFrom_nat (b : Bytes) (n : Nat) :
    jsSubarrayFrom b (n : Int) = b.drop n := by
  unfold jsSubarrayFrom jsSubarray clampIndex
  rw [if_neg (by omega), if_neg (by omega)]
  simp only [Int.toNat_natCast]
  rw [min_self, List.take_length, drop_min_length]

/-- C10: `getHeadersAndData` is total for every buffer and every integer
`headerLength` — the embedding is a plain total function (none of the JS
operations involved can throw; `subarray` clamps).  The theorem pins the
behaviour at the claim's edge values: the payload never exceeds the
buffer, `headerLength = -1` (the no-delimiter text-frame case) yields the
buffer minus its first byte as payload, and `headerLength ≥ length`
yields an empty payload. -/
theorem c10_getHeadersAndData_total :
    (∀ (data : Bytes) (headerLength : Int),
      ((getHeadersAndData data headerLength).2).length ≤ data.length) ∧
    (∀ data : Bytes, (getHeadersAndData data (-1)).2 = data.drop 1) ∧
    (∀ (data : Bytes) (headerLength : Int), (data.length : Int) ≤ headerLength →
      (getHeadersAndData data headerLength).2 = []) := by
  refine ⟨?_, ?_, ?_⟩
  · intro data hl
    unfold getHeadersAndData jsSubarrayFrom jsSubarray
    simp only
    rw [List.length_drop, List.length_take]
    have h1 : clampIndex data.length ((data.length : Int)) ⊓ data.length ≤ data.length :=
      inf_le_right
    omega
  · intro data
    have h : (-1 : Int) + 2 = ((1 : Nat) : Int) := by norm_num
    unfold getHeadersAndData
    simp only
    rw [h, jsSubarrayFrom_nat]
  · intro data hl hge
    unfold getHeadersAndData jsSubarrayFrom jsSubarray
    simp only
    have hc2 : clampIndex data.length (hl + 2) = data.length := by
      unfold clampIndex
      rw [if_neg (by omega)]
      exact min_eq_right (by omega)
    rw [hc2]
    apply List.drop_eq_nil_iff.mpr
    rw [List.length_take]
    exact inf_le_right

/-- C10 witness: the theorem applied at the concrete buffer `[1, 2, 3]`
with `headerLength = 5 ≥ 3`. -/
theorem c10_witness :
    ((([1, 2, 3] : Bytes).length : Int) ≤ 5) ∧ (getHeadersAndData [1, 2, 3] 5).2 = [] :=
  ⟨by decide, c10_getHeadersAndData_total.2.2 [1, 2, 3] 5 (by decide)⟩

/-- C4: as stated the claim is false — the implementation parses the
header block from bytes `[0, L)` (the two length bytes included, the last
two header-block bytes excluded), not from `[2, 2+L)`; amended with that
range, everything else holds: payload is exactly the bytes after position
`2+L`, a frame shorter than 2 bytes fails with the binary-too-short
error, and `L` greater than the frame length fails with the
header-length error, emitting nothing. -/
theorem c4_decodeBinary_amended :
    ∀ buf : Bytes,
      (buf.length < 2 → decodeBinary buf = .error .binaryTooShort) ∧
      (¬ buf.length < 2 → buf.length < buf.getD 0 0 * 256 + buf.getD 1 0 →
        decodeBinary buf = .error .headerLengthTooBig) ∧
      (¬ buf.length < 2 → buf.getD 0 0 * 256 + buf.getD 1 0 ≤ buf.length →
        decodeBinary buf =
          .ok (parseHeaderLines
                (utf8Decode (buf.take (buf.getD 0 0 * 256 + buf.getD 1 0))),
               buf.drop (buf.getD 0 0 * 256 + buf.getD 1 0 + 2))) := by
  intro buf
  refine ⟨?_, ?_, ?_⟩
  · intro h
    unfold decodeBinary
    rw [if_pos h]
  · intro h2 h
    unfold decodeBinary
    rw [if_neg h2]
    simp only
    rw [if_pos h]
  · intro h2 hle
    unfold decodeBinary
    rw [if_neg h2]
    simp only
    rw [if_neg (by omega)]
    unfold getHeadersAndData
    simp only
    rw [jsSubarray_zero_nat]
    have hc : ((buf.getD 0 0 * 256 + buf.getD 1 0 : Nat) : Int) + 2 =
        (((buf.getD 0 0 * 256 + buf.getD 1 0 + 2 : Nat) : Nat) : Int) := by
      push_cast
      ring
    rw [hc, jsSubarrayFrom_nat]

/-- C4 witness: the amended claim applied to a concrete well-formed audio
frame. -/
theorem c4_witness :
    (¬ exampleAudioFrame.length < 2) ∧
    exampleAudioFrame.getD 0 0 * 256 + exampleAudioFrame.getD 1 0 ≤
      exampleAudioFrame.length ∧
    decodeBinary exampleAudioFrame =
      .ok (parseHeaderLines
            (utf8Decode (exampleAudioFrame.take
              (exampleAudioFrame.getD 0 0 * 256 + exampleAudioFrame.getD 1 0))),
           exampleAudioFrame.drop
            (exampleAudioFrame.getD 0 0 * 256 + exampleAudioFrame.getD 1 0 + 2)) :=
  ⟨by decide, by decide,
   (c4_decodeBinary_amended exampleAudioFrame).2.2 (by decide) (by decide)⟩

/-- C4 counterexample: a frame whose header block per the claim would be
`"Path:audio"` (bytes `[2, 2+L)`).  The implementation instead parses
bytes `[0, L)`, producing the mangled header key `"\x00\nPath"` with value
`"aud"`, so `Path` is not found — unlike the `[2, 2+L)` reading
(`decodeBinarySpec`), which yields `Path: audio`.  The payload agrees. -/
theorem c4_counterexample :
    decodeBinary ([0, 10] ++ str ("Path:audio") ++ [1, 2, 3]) =
      .ok ([([0, 10] ++ str ("Path"), str ("aud"))], [1, 2, 3]) ∧
    getHeader [([0, 10] ++ str ("Path"), str ("aud"))] (str ("Path")) = none ∧
    decodeBinarySpec ([0, 10] ++ str ("Path:audio") ++ [1, 2, 3]) =
      .ok ([(str ("Path"), str ("audio"))], [1, 2, 3]) := by decide

/-!
## Lemmas about the receive loop
-/

theorem parseMetadata_ok_type (comp : Int) (items : List MetaItem) (meta : TTSChunk)
    (h : parseMetadata comp items = .ok meta) :
    meta.type = ChunkType.wordBoundary ∨ meta.type = ChunkType.sentenceBoundary := by
  induction items generalizing meta with
  | nil => exact Except.noConfusion h
  | cons i rest ih =>
    simp only [parseMetadata] at h
    by_cases hb : i.mtype = str ("WordBoundary") ∨ i.mtype = str ("SentenceBoundary")
    · rw [if_pos hb] at h
      injection h with h'
      rw [← h']
      dsimp only
      split
      · exact Or.inl rfl
      · exact Or.inr rfl
    · rw [if_neg hb] at h
      by_cases hs : i.mtype = str ("SessionEnd")
      · rw [if_pos hs] at h
        exact ih meta h
      · rw [if_neg hs] at h
        exact Except.noConfusion h

theorem processMessage_flag_no_audio (pj : JsonOracle) (st : LoopState) (m : Msg)
    (evs : List TTSChunk) (st1 : LoopState) (brk : Bool)
    (h : processMessage pj st m = .ok (evs, st1, brk))
    (hno : ∀ e ∈ evs, e.type ≠ ChunkType.audio) :
    st1.audioWasReceived = st.audioWasReceived := by
  cases m with
  | text raw =>
    simp only [processMessage] at h
    cases hg : getHeader (getHeadersAndData raw (bytesIndexOf raw (str ("\r\n\r\n")))).1
        (str ("Path")) with
    | none =>
      rw [hg] at h
      dsimp only at h
      injection h with h'
      have hst : st = st1 := congrArg (fun p => p.2.1) h'
      rw [← hst]
    | some p =>
      rw [hg] at h
      dsimp only at h
      by_cases hm : p = str ("audio.metadata")
      · rw [if_pos hm] at h
        cases hj : pj (getHeadersAndData raw (bytesIndexOf raw (str ("\r\n\r\n")))).2 with
        | error e =>
          rw [hj] at h
          dsimp only at h
          exact Except.noConfusion h
        | ok items =>
          rw [hj] at h
          dsimp only at h
          cases hp : parseMetadata st.offsetCompensation items with
          | error e =>
            rw [hp] at h
            dsimp only at h
            exact Except.noConfusion h
          | ok meta =>
            rw [hp] at h
            dsimp only at h
            injection h with h'
            have hst : LoopState.mk st.offsetCompensation
                (meta.offset.getD 0 + meta.duration.getD 0) st.audioWasReceived = st1 :=
              congrArg (fun p => p.2.1) h'
            rw [← hst]
      · rw [if_neg hm] at h
        by_cases ht : p = str ("turn.end")
        · rw [if_pos ht] at h
          injection h with h'
          have hst : LoopState.mk (st.lastDurationOffset + 8750000) st.lastDurationOffset
              st.audioWasReceived = st1 :=
            congrArg (fun p => p.2.1) h'
          rw [← hst]
        · rw [if_neg ht] at h
          injection h with h'
          have hst : st = st1 := congrArg (fun p => p.2.1) h'
          rw [← hst]
  | binary raw =>
    simp only [processMessage] at h
    cases hd : decodeBinary raw with
    | error e =>
      rw [hd] at h
      dsimp only at h
      exact Except.noConfusion h
    | ok pr =>
      obtain ⟨headers, audioData⟩ := pr
      rw [hd] at h
      dsimp only at h
      by_cases hp : getHeader headers (str ("Path")) ≠ some (str ("audio"))
      · rw [if_pos hp] at h
        exact Except.noConfusion h
      · rw [if_neg hp] at h
        cases hc : getHeader headers (str ("Content-Type")) with
        | none =>
          rw [hc] at h
          dsimp only at h
          by_cases hl : audioData.length = 0
          · rw [if_pos hl] at h
            injection h with h'
            have hst : st = st1 := congrArg (fun p => p.2.1) h'
            rw [← hst]
          · rw [if_neg hl] at h
            exact Except.noConfusion h
        | some ct =>
          rw [hc] at h
          dsimp only at h
          by_cases hct : ct ≠ str ("audio/mpeg")
          · rw [if_pos hct] at h
            exact Except.noConfusion h
          · rw [if_neg hct] at h
            by_cases hl : audioData.length = 0
            · rw [if_pos hl] at h
              exact Except.noConfusion h
            · rw [if_neg hl] at h
              injection h with h'
              have hev : [TTSChunk.mk ChunkType.audio (some audioData) none none none] =
                  evs :=
                congrArg (fun p => p.1) h'
              have hmem : TTSChunk.mk ChunkType.audio (some audioData) none none none ∈
                  evs := by
                rw [← hev]
                exact List.mem_singleton_self _
              exact absurd rfl (hno _ hmem)

theorem runLoop_flag_no_audio (pj : JsonOracle) (st : LoopState) (msgs : List Msg)
    (evs : List TTSChunk) (st' : LoopState)
    (h : runLoop pj st msgs = .ok (evs, st'))
    (hno : ∀ e ∈ evs, e.type ≠ ChunkType.audio) :
    st'.audioWasReceived = st.audioWasReceived := by
  induction msgs generalizing st evs st' with
  | nil =>
    simp only [runLoop] at h
    injection h with h'
    have hst : st = st' := congrArg (fun p => p.2) h'
    rw [← hst]
  | cons m rest ih =>
    simp only [runLoop] at h
    cases hpm : processMessage pj st m with
    | error e =>
      rw [hpm] at h
      dsimp only at h
      exact Except.noConfusion h
    | ok tr =>
      obtain ⟨evs1, st1, brk⟩ := tr
      rw [hpm] at h
      dsimp only at h
      cases brk with
      | true =>
        rw [if_pos rfl] at h
        injection h with h'
        have he : evs1 = evs := congrArg (fun p => p.1) h'
        have hst : st1 = st' := congrArg (fun p => p.2) h'
        rw [← hst]
        exact processMessage_flag_no_audio pj st m evs1 st1 true hpm
          (fun e hme => hno e (he ▸ hme))
      | false =>
        rw [if_neg Bool.false_ne_true] at h
        cases hrl : runLoop pj st1 rest with
        | error e =>
          rw [hrl] at h
          dsimp only at h
          exact Except.noConfusion h
        | ok pr2 =>
          obtain ⟨evs2, st2⟩ := pr2
          rw [hrl] at h
          dsimp only at h
          injection h with h'
          have he : evs1 ++ evs2 = evs := congrArg (fun p => p.1) h'
          have hst : st2 = st' := congrArg (fun p => p.2) h'
          have hno1 : ∀ e ∈ evs1, e.type ≠ ChunkType.audio :=
            fun e hme => hno e (he ▸ List.mem_append_left _ hme)
          have hno2 : ∀ e ∈ evs2, e.type ≠ ChunkType.audio :=
            fun e hme => hno e (he ▸ List.mem_append_right _ hme)
          rw [← hst]
          exact (ih st1 evs2 st2 hrl hno2).trans
            (processMessage_flag_no_audio pj st m evs1 st1 false hpm hno1)

/-- C9: if a chunk's receive loop completes (turn.end or connection close)
with no Audio event among the emitted events, `streamInternal` fails the
whole stream with `NoAudioReceived`, no matter how many boundary/metadata
events were emitted. -/
theorem c9_no_audio_event_fails (pj : JsonOracle) (comp lastDur : Int) (msgs : List Msg)
    (evs : List TTSChunk) (st' : LoopState)
    (h : runLoop pj (LoopState.mk comp lastDur false) msgs = .ok (evs, st'))
    (hno : ∀ e ∈ evs, e.type ≠ ChunkType.audio) :
    streamInternal pj comp lastDur msgs = .error CommErr.noAudioReceived := by
  unfold streamInternal
  rw [h]
  dsimp only
  rw [runLoop_flag_no_audio pj (LoopState.mk comp lastDur false) msgs evs st' h hno]
  rw [if_neg Bool.false_ne_true]

/-- C9 witness: a chunk whose frames carry one word-boundary metadata event
and a `turn.end` but no audio: the loop succeeds with one boundary event,
yet the stream fails with `NoAudioReceived`. -/
theorem c9_witness :
    runLoop exampleOracle (LoopState.mk 0 0 false)
        [Msg.text (str ("Path:audio.metadata\r\n\r\n{}")),
         Msg.text (str ("Path:turn.end\r\n\r\n"))] =
      .ok ([TTSChunk.mk ChunkType.wordBoundary none (some 1000000) (some 500000)
              (some (str ("hi")))],
            LoopState.mk 10250000 1500000 false) ∧
    streamInternal exampleOracle 0 0
        [Msg.text (str ("Path:audio.metadata\r\n\r\n{}")),
         Msg.text (str ("Path:turn.end\r\n\r\n"))] =
      .error CommErr.noAudioReceived :=
  ⟨by decide,
   c9_no_audio_event_fails exampleOracle 0 0
     [Msg.text (str ("Path:audio.metadata\r\n\r\n{}")),
      Msg.text (str ("Path:turn.end\r\n\r\n"))]
     [TTSChunk.mk ChunkType.wordBoundary none (some 1000000) (some 500000)
       (some (str ("hi")))]
     (LoopState.mk 10250000 1500000 false) (by decide) (by decide)⟩

/-- C3: the offset bookkeeping of the receive loop.  (1) Processing a
`turn.end` frame sets `offsetCompensation` to
`lastDurationOffset + 8750000` (and breaks).  (2) Every boundary event
built by `parseMetadata` carries the raw metadata offset of an item of its
body plus the `offsetCompensation` in force.  (3) After an
`audio.metadata` frame is processed, `lastDurationOffset` equals the
emitted event's offset plus duration (`(meta.offset || 0) +
(meta.duration || 0)` in the source) and `offsetCompensation` is
unchanged. -/
theorem c3_offset_bookkeeping (pj : JsonOracle) (st : LoopState) (raw : Bytes)
    (comp : Int) (items : List MetaItem) (meta : TTSChunk)
    (evs : List TTSChunk) (st1 : LoopState) (brk : Bool) :
    (getHeader (getHeadersAndData raw (bytesIndexOf raw (str ("\r\n\r\n")))).1 (str ("Path")) =
        some (str ("turn.end")) →
      processMessage pj st (.text raw) =
        .ok ([], LoopState.mk (st.lastDurationOffset + 8750000) st.lastDurationOffset
          st.audioWasReceived, true)) ∧
    (parseMetadata comp items = .ok meta →
      ∃ i ∈ items,
        (i.mtype = str ("WordBoundary") ∨ i.mtype = str ("SentenceBoundary")) ∧
        meta.offset = some (i.offset + comp) ∧ meta.duration = some i.duration) ∧
    (getHeader (getHeadersAndData raw (bytesIndexOf raw (str ("\r\n\r\n")))).1 (str ("Path")) =
        some (str ("audio.metadata")) →
      processMessage pj st (.text raw) = .ok (evs, st1, brk) →
      ∃ m, evs = [m] ∧
        st1.lastDurationOffset = m.offset.getD 0 + m.duration.getD 0 ∧
        st1.offsetCompensation = st.offsetCompensation) := by
  refine ⟨?_, ?_, ?_⟩
  · intro hpath
    simp only [processMessage]
    rw [hpath]
    dsimp only
    rw [if_neg (by decide : ¬(str ("turn.end") = str ("audio.metadata")))]
    rw [if_pos rfl]
  · intro h
    induction items generalizing meta with
    | nil => exact Except.noConfusion h
    | cons i rest ih =>
      simp only [parseMetadata] at h
      by_cases hb : i.mtype = str ("WordBoundary") ∨ i.mtype = str ("SentenceBoundary")
      · rw [if_pos hb] at h
        injection h with h'
        refine ⟨i, List.mem_cons_self i rest, hb, ?_, ?_⟩
        · rw [← h']
        · rw [← h']
      · rw [if_neg hb] at h
        by_cases hs : i.mtype = str ("SessionEnd")
        · rw [if_pos hs] at h
          obtain ⟨j, hj, hjb, hjo, hjd⟩ := ih meta h
          exact ⟨j, List.mem_cons_of_mem i hj, hjb, hjo, hjd⟩
        · rw [if_neg hs] at h
          exact Except.noConfusion h
  · intro hpath h
    simp only [processMessage] at h
    rw [hpath] at h
    dsimp only at h
    rw [if_pos rfl] at h
    cases hj : pj (getHeadersAndData raw (bytesIndexOf raw (str ("\r\n\r\n")))).2 with
    | error e =>
      rw [hj] at h
      dsimp only at h
      exact Except.noConfusion h
    | ok items' =>
      rw [hj] at h
      dsimp only at h
      cases hp : parseMetadata st.offsetCompensation items' with
      | error e =>
        rw [hp] at h
        dsimp only at h
        exact Except.noConfusion h
      | ok m =>
        rw [hp] at h
        dsimp only at h
        injection h with h'
        have he : [m] = evs := congrArg (fun p => p.1) h'
        have hst : LoopState.mk st.offsetCompensation
            (m.offset.getD 0 + m.duration.getD 0) st.audioWasReceived = st1 :=
          congrArg (fun p => p.2.1) h'
        exact ⟨m, he.symm, by rw [← hst], by rw [← hst]⟩

/-- C3 witness: the spec's golden chunk.  The `turn.end` step from
`lastDurationOffset = 1500000` sets `offsetCompensation` to `10250000`;
the golden boundary item at raw offset 1000000 under compensation 0 emits
offset 1000000; the `audio.metadata` step records
`lastDurationOffset = 1500000`; and the full golden message sequence
yields exactly one boundary event and one audio event with final state
`(10250000, 1500000)`. -/
theorem c3_witness :
    (processMessage exampleOracle (LoopState.mk 0 1500000 false)
        (.text (str ("Path:turn.end\r\n\r\n"))) =
      .ok ([], LoopState.mk (1500000 + 8750000) 1500000 false, true)) ∧
    (∃ i ∈ [MetaItem.mk (str ("WordBoundary")) 1000000 500000 (str ("hi"))],
      (i.mtype = str ("WordBoundary") ∨ i.mtype = str ("SentenceBoundary")) ∧
      (TTSChunk.mk ChunkType.wordBoundary none (some 1000000) (some 500000)
          (some (str ("hi")))).offset = some (i.offset + 0) ∧
      (TTSChunk.mk ChunkType.wordBoundary none (some 1000000) (some 500000)
          (some (str ("hi")))).duration = some i.duration) ∧
    (∃ m, [TTSChunk.mk ChunkType.wordBoundary none (some 1000000) (some 500000)
            (some (str ("hi")))] = [m] ∧
      (LoopState.mk 0 1500000 false).lastDurationOffset =
        m.offset.getD 0 + m.duration.getD 0 ∧
      (LoopState.mk 0 1500000 false).offsetCompensation =
        (LoopState.mk 0 0 false).offsetCompensation) ∧
    streamInternal exampleOracle 0 0 goldenMsgs =
      .ok ([TTSChunk.mk ChunkType.wordBoundary none (some 1000000) (some 500000)
              (some (str ("hi"))),
            TTSChunk.mk ChunkType.audio (some [7, 7, 7]) none none none],
           LoopState.mk 10250000 1500000 true) :=
  ⟨(c3_offset_bookkeeping exampleOracle (LoopState.mk 0 1500000 false)
      (str ("Path:turn.end\r\n\r\n")) 0 [] (TTSChunk.mk ChunkType.wordBoundary none none
        none none) [] (LoopState.mk 0 0 false) false).1 (by decide),
   (c3_offset_bookkeeping exampleOracle (LoopState.mk 0 1500000 false)
      (str ("Path:turn.end\r\n\r\n")) 0
      [MetaItem.mk (str ("WordBoundary")) 1000000 500000 (str ("hi"))]
      (TTSChunk.mk ChunkType.wordBoundary none (some 1000000) (some 500000)
        (some (str ("hi")))) [] (LoopState.mk 0 0 false) false).2.1 (by decide),
   (c3_offset_bookkeeping exampleOracle (LoopState.mk 0 0 false)
      (str ("Path:audio.metadata\r\n\r\n{}")) 0 []
      (TTSChunk.mk ChunkType.wordBoundary none none none none)
      [TTSChunk.mk ChunkType.wordBoundary none (some 1000000) (some 500000)
        (some (str ("hi")))]
      (LoopState.mk 0 1500000 false) false).2.2 (by decide) (by decide),
   by decide⟩

/-- C7 (amended): `parseMetadata` skips leading `SessionEnd` items and then
is decided entirely by the FIRST remaining item: a boundary item yields
exactly one event (offset compensated), any other type fails with the
unknown-metadata-type error, and an all-`SessionEnd` (or empty) body fails
with `UnexpectedResponse`; items after the first non-`SessionEnd` item are
never examined. -/
theorem c7_parseMetadata_first_boundary (comp : Int) (items : List MetaItem) :
    parseMetadata comp items =
      match items.dropWhile (fun i => decide (i.mtype = str ("SessionEnd"))) with
      | [] => .error CommErr.noBoundaryMetadata
      | i :: _ =>
        if i.mtype = str ("WordBoundary") ∨ i.mtype = str ("SentenceBoundary") then
          .ok (TTSChunk.mk
            (if i.mtype = str ("WordBoundary") then ChunkType.wordBoundary
             else ChunkType.sentenceBoundary)
            none (some (i.offset + comp)) (some i.duration) (some (unescapeXml i.text)))
        else .error (.unknownMetadataType i.mtype) := by
  induction items with
  | nil => rfl
  | cons i rest ih =>
    simp only [parseMetadata, List.dropWhile_cons]
    by_cases hs : i.mtype = str ("SessionEnd")
    · have hb : ¬(i.mtype = str ("WordBoundary") ∨ i.mtype = str ("SentenceBoundary")) := by
        rw [hs]
        decide
      rw [if_neg hb, if_pos hs, decide_eq_true hs, if_pos rfl]
      exact ih
    · rw [decide_eq_false hs, if_neg Bool.false_ne_true]
      dsimp only
      by_cases hb : i.mtype = str ("WordBoundary") ∨ i.mtype = str ("SentenceBoundary")
      · rw [if_pos hb]
        rw [if_pos hb]
      · rw [if_neg hb, if_neg hs]
        rw [if_neg hb]

/-- C7 counterexample: a text frame whose body parses to TWO word-boundary
items yields a single boundary event (built from the first item); the
second boundary item produces no event, contradicting "every metadata item
... yields one boundary event". -/
theorem c7_counterexample :
    twoBoundaryOracle (str ("\r\n{}")) =
      .ok [MetaItem.mk (str ("WordBoundary")) 1000000 500000 (str ("hi")),
           MetaItem.mk (str ("WordBoundary")) 2000000 300000 (str ("yo"))] ∧
    processMessage twoBoundaryOracle (LoopState.mk 0 0 false)
        (.text (str ("Path:audio.metadata\r\n\r\n{}"))) =
      .ok ([TTSChunk.mk ChunkType.wordBoundary none (some 1000000) (some 500000)
              (some (str ("hi")))],
           LoopState.mk 0 1500000 false, false) :=
  ⟨by decide, by decide⟩

/-- C8 (amended): the type-exclusivity of boundary events is enforced only
by `SubMaker.feed`, not by the stream itself: once `SubMaker` has pinned a
boundary type, feeding it a boundary event of the other type fails with
the mismatched-type error. -/
theorem c8_submaker_rejects_mismatch (st : SubMakerState) (msg : TTSChunk) (t : ChunkType)
    (hst : st.stype = some t)
    (hb : msg.type = ChunkType.wordBoundary ∨ msg.type = ChunkType.sentenceBoundary)
    (hne : msg.type ≠ t) :
    subMakerFeed st msg = .error (.mismatchedBoundaryType t msg.type) := by
  have hguard : ¬(msg.type ≠ ChunkType.wordBoundary ∧ msg.type ≠ ChunkType.sentenceBoundary) := by
    rcases hb with h | h <;> simp [h]
  simp only [subMakerFeed]
  rw [if_neg hguard, hst]
  dsimp only
  rw [if_pos (Ne.symm hne)]

/-- C8 witness: a `SubMaker` pinned to sentence boundaries rejects a
word-boundary event with the mismatched-type error. -/
theorem c8_witness :
    (SubMakerState.mk [] (some ChunkType.sentenceBoundary)).stype =
      some ChunkType.sentenceBoundary ∧
    (TTSChunk.mk ChunkType.wordBoundary none (some 2000000) (some 300000)
        (some (str ("yo")))).type = ChunkType.wordBoundary ∧
    (TTSChunk.mk ChunkType.wordBoundary none (some 2000000) (some 300000)
        (some (str ("yo")))).type ≠ ChunkType.sentenceBoundary ∧
    subMakerFeed (SubMakerState.mk [] (some ChunkType.sentenceBoundary))
        (TTSChunk.mk ChunkType.wordBoundary none (some 2000000) (some 300000)
          (some (str ("yo")))) =
      .error (.mismatchedBoundaryType ChunkType.sentenceBoundary ChunkType.wordBoundary) :=
  ⟨rfl, rfl, by decide,
   c8_submaker_rejects_mismatch
     (SubMakerState.mk [] (some ChunkType.sentenceBoundary))
     (TTSChunk.mk ChunkType.wordBoundary none (some 2000000) (some 300000)
       (some (str ("yo"))))
     ChunkType.sentenceBoundary rfl (Or.inl rfl) (by decide)⟩

/-- C8 counterexample: the receive loop itself never enforces boundary-type
exclusivity: a sentence-boundary event followed by a word-boundary event in
the same stream are BOTH emitted, with no error. -/
theorem c8_counterexample :
    runLoop mixedBoundaryOracle (LoopState.mk 0 0 false)
        [Msg.text (str ("Path:audio.metadata\r\n\r\n{s}")),
         Msg.text (str ("Path:audio.metadata\r\n\r\n{w}"))] =
      .ok ([TTSChunk.mk ChunkType.sentenceBoundary none (some 1000000) (some 500000)
              (some (str ("hi"))),
            TTSChunk.mk ChunkType.wordBoundary none (some 2000000) (some 300000)
              (some (str ("yo")))],
           LoopState.mk 0 2300000 false) := by
  decide

/-- C2 (amended): the connect loop of `Communicate.stream` never retries:
whatever `retryCount` is and whatever outcomes later attempts would
produce, a first attempt that fails — with any name and code, including a
403 `UnexpectedServerResponse` — is rethrown immediately (both branches of
the `catch` rethrow; no skew correction happens). -/
theorem c2_first_failure_propagates (retryCount : Nat) (rest : List ConnectOutcome)
    (name : List Nat) (code : Int) :
    chunkConnectLoop retryCount (ConnectOutcome.failed name code :: rest) =
      .error (name, code) := by
  simp only [chunkConnectLoop]
  exact ite_self _

/-- C2 counterexample: a first connection attempt failing as a 403
`UnexpectedServerResponse` with `retryCount = 0` aborts the stream even
though the claimed single retry would have succeeded (the second attempt
opens). -/
theorem c2_counterexample :
    chunkConnectLoop 0
        [ConnectOutcome.failed (str ("UnexpectedServerResponse")) 403,
         ConnectOutcome.opened] =
      .error (str ("UnexpectedServerResponse"), 403) := by
  decide

/-!
## The DRM token generator
-/

/-- C1: for every clock reading `t ≥ 0` (as produced by
`getUnixTimestamp`), `generateSecMsGec` returns the uppercase hex SHA-256
digest of the decimal tick count concatenated with the shared secret,
where the tick count is the Windows-epoch time truncated down to the
nearest multiple of 300 seconds and converted to 100 ns ticks.  The
truncated multiple is characterised by the bracket
`300M ≤ t + 11644473600 < 300(M+1)`. -/
theorem c1_generateSecMsGec (t : ℚ) (M : ℤ) (ht : 0 ≤ t)
    (h1 : (300 * M : ℚ) ≤ t + 11644473600)
    (h2 : t + 11644473600 < 300 * ((M : ℚ) + 1)) :
    generateSecMsGec t =
      jsToUpperCaseAscii (bytesToHexAscii (sha256
        (intDecimalAscii (M * 3000000000) ++ TRUSTED_CLIENT_TOKEN))) := by
  have hW : ((WIN_EPOCH : ℕ) : ℚ) = 11644473600 := by norm_num [WIN_EPOCH]
  set q : ℚ := t + 11644473600 with hqdef
  have hq0 : 0 ≤ q := by rw [hqdef]; linarith
  have hM0 : 0 ≤ M := by
    have h3 : (0 : ℚ) < 300 * ((M : ℚ) + 1) := lt_of_le_of_lt hq0 h2
    have h4 : (0 : ℚ) < (M : ℚ) + 1 := by linarith
    have h5 : (-1 : ℚ) < (M : ℚ) := by linarith
    have h6 : (-1 : ℤ) < M := by exact_mod_cast h5
    omega
  have hfloor : intTrunc (q / 300) = M := by
    unfold intTrunc
    rw [if_pos (by positivity)]
    rw [Int.floor_eq_iff]
    constructor
    · rw [le_div_iff (by norm_num : (0 : ℚ) < 300)]
      linarith
    · rw [div_lt_iff (by norm_num : (0 : ℚ) < 300)]
      linarith
  have hmod : jsMod q 300 = q - 300 * M := by
    unfold jsMod
    rw [hfloor]
    try ring
  have harg : jsToFixed0 ((q - jsMod q 300) * 10000000) =
      intDecimalAscii (M * 3000000000) := by
    rw [hmod]
    have he : (q - (q - 300 * (M : ℚ))) * 10000000 = ((M * 3000000000 : ℤ) : ℚ) := by
      push_cast
      ring
    rw [he]
    unfold jsToFixed0
    rw [if_pos (by exact_mod_cast mul_nonneg hM0 (by norm_num))]
    congr 1
    rw [Int.floor_eq_iff]
    constructor
    · push_cast
      linarith
    · push_cast
      linarith
  unfold generateSecMsGec
  dsimp only
  rw [hW, ← hqdef, harg]

/-- C1 witness: the golden value at the fixed clock reading
`t = 1700000000` (bracket `M = 44481578`); the digest matches the
independently computed reference value. -/
theorem c1_witness :
    (0 : ℚ) ≤ 1700000000 ∧
    generateSecMsGec 1700000000 =
      str ("42301B335578FEFDAE2637DED1ABD614505D432559EC08032B82048483726AFF") :=
  ⟨by norm_num,
   (c1_generateSecMsGec 1700000000 44481578 (by norm_num) (by norm_num)
     (by norm_num)).trans (by decide)⟩

end EdgeTTS
